import Mathlib

/-!
Verification development for the Moses chart k-best extractor
(`moses/ChartKBestExtractor.h`, implementing Huang & Chiang's "Better k-best
parsing", Algorithm 3) and for the moses2 SCFG active chart
(`contrib/other-builds/moses2/SCFG/ActiveChart.cpp`).

The C++ data model is shallow-embedded:
* pointers to vertices/hypotheses become natural-number identities;
* nullable pointers become `Option`;
* `assert` becomes an `Option`-returning smart constructor;
* machine floats (scores) are modelled as exact integers — IEEE NaN/infinity
  behaviour is explicitly out of scope for the ranking properties here;
* `std::priority_queue` is embedded as its libstdc++ binary-heap algorithms
  (sift-up on push, Floyd's hole-descent plus sift-up on pop) acting on the
  underlying array.
-/

namespace MosesVerify

/-! ## Part A — moses2 SCFG ActiveChart

Embedding of `SymbolBindElement` and `SymbolBind` from
`src/contrib/other-builds/moses2/SCFG/ActiveChart.cpp`.  `Range`, `Word` and
`HypothesisColl` are external types; we keep exactly the structure the code
reads: a range is an identity, a word carries its `isNonTerminal` flag, and a
`HypothesisColl` pointer is an identity wrapped in `Option` (NULL = `none`). -/

structure SCFGWord where
  wordId : Nat
  isNonTerminal : Bool
deriving DecidableEq, Repr

structure SymbolBindElement where
  range : Nat
  word : SCFGWord
  hypos : Option Nat
deriving DecidableEq, Repr

/-- The `SymbolBindElement` constructor.  The C++ body runs
`assert((word->isNonTerminal && hypos) || (!word->isNonTerminal && hypos == NULL))`;
the assertion is embedded as an `Option`-returning smart constructor. -/
def SymbolBindElement.mk? (range : Nat) (word : SCFGWord) (hypos : Option Nat) :
    Option SymbolBindElement :=
  if (word.isNonTerminal && hypos.isSome) || (!word.isNonTerminal && hypos.isNone) then
    some ⟨range, word, hypos⟩
  else
    none

structure SymbolBind where
  coll : List SymbolBindElement
  numNT : Nat
deriving DecidableEq, Repr

def SymbolBind.empty : SymbolBind := ⟨[], 0⟩

/-- `SymbolBind::Add`: construct the element (running the constructor's
assertion), push it onto `coll`, and bump `numNT` when the word is a
non-terminal. -/
def SymbolBind.Add (sb : SymbolBind) (range : Nat) (word : SCFGWord)
    (hypos : Option Nat) : Option SymbolBind :=
  (SymbolBindElement.mk? range word hypos).map fun ele =>
    ⟨sb.coll ++ [ele], sb.numNT + (if word.isNonTerminal then 1 else 0)⟩

/-- `SymbolBind::GetNTElements`: loop over `coll` in order, keeping the
elements whose word is a non-terminal. -/
def SymbolBind.GetNTElements (sb : SymbolBind) : List SymbolBindElement :=
  sb.coll.foldl (fun ret ele => if ele.word.isNonTerminal then ret ++ [ele] else ret) []

/-- A `SymbolBind` obtained from `empty` by a sequence of `Add` calls
(the whole build fails if any single `Add` trips the element assertion). -/
def SymbolBind.build (args : List (Nat × SCFGWord × Option Nat)) : Option SymbolBind :=
  args.foldlM (fun sb a => sb.Add a.1 a.2.1 a.2.2) SymbolBind.empty

/-! ## Part B — ChartKBestExtractor data model

Embedding of the structures of `src/moses/ChartKBestExtractor.h`.  A
`boost::shared_ptr<Vertex>` is embedded as the vertex's identity (a natural
number): `FindOrCreateVertex` guarantees one vertex object per hypothesis, so
pointer equality on vertices is identity of hypotheses.  The hyperarc record
also carries the rule's local score contribution (in C++ reachable through
`head->hypothesis`); scores are exact integers. -/

structure Hyperedge where
  head : Nat
  tail : List Nat
  score : Int
  breakdown : List Int
deriving DecidableEq, Repr, Inhabited

structure Derivation where
  edge : Hyperedge
  backPointers : List Nat
  score : Int
  scoreBreakdown : List Int
deriving DecidableEq, Repr, Inhabited

/-- `DerivationOrderer::operator()`: compares `d1->score < d2->score`. -/
def DerivationOrderer (d1 d2 : Derivation) : Bool :=
  d1.score < d2.score

/-- `boost::hash_combine`: `seed ^= hash(v) + 0x9e3779b9 + (seed<<6) + (seed>>2)`,
over 64-bit machine words. -/
def hashCombine (seed v : Nat) : Nat :=
  (seed ^^^ ((v + 0x9e3779b9 + seed * 64 + seed / 4) % 2 ^ 64)) % 2 ^ 64

/-- `boost::hash_range` over a vector, as used by `boost::hash` on
`std::vector`: fold `hashCombine` over the elements starting from seed 0. -/
def hashRange (l : List Nat) : Nat :=
  l.foldl hashCombine 0

/-- `DerivationHasher::operator()`: combines the head pointer, the tail
pointer vector and the back-pointer vector. -/
def DerivationHasher (d : Derivation) : Nat :=
  hashCombine (hashCombine (hashCombine 0 d.edge.head) (hashRange d.edge.tail))
    (hashRange d.backPointers)

/-- `DerivationEqualityPred::operator()`: structural comparison of head, tail
and back-pointers (pointer equality on vertices = identity of hypotheses). -/
def DerivationEqualityPred (d1 d2 : Derivation) : Bool :=
  d1.edge.head == d2.edge.head && d1.edge.tail == d2.edge.tail &&
    d1.backPointers == d2.backPointers

/-- The structural identity of a derivation: head, tail, back-pointers.
This is exactly the key compared by `DerivationEqualityPred`. -/
structure DerivId where
  head : Nat
  tail : List Nat
  bp : List Nat
deriving DecidableEq, Repr

def derivId (d : Derivation) : DerivId :=
  ⟨d.edge.head, d.edge.tail, d.backPointers⟩

/-! ## Part C — `std::priority_queue` embedding

`Vertex::DerivationQueue` is `std::priority_queue` over a `std::vector` with
`DerivationOrderer`.  We embed the container's actual behaviour (libstdc++):
`push` appends and sifts the new element up; `pop` removes the root, moves the
last element out, lets the hole descend along maximal children to a leaf
(Floyd's variant, preferring the right child on ties) and then sifts the
carried value up from that leaf. -/

def hget (a : List Derivation) (i : Nat) : Derivation :=
  a.getD i default

def parentIdx (i : Nat) : Nat :=
  (i - 1) / 2

/-- The loop of `std::__push_heap`, with an explicit iteration bound (the
hole index itself bounds the number of parent steps): the hole at index `h`
moves up while the parent compares less than the carried value `v`; finally
`v` is written down. -/
def siftUpF : Nat → List Derivation → Nat → Derivation → List Derivation
  | 0, a, h, v => a.set h v
  | fuel + 1, a, h, v =>
    if h = 0 then a.set 0 v
    else
      let p := parentIdx h
      if DerivationOrderer (hget a p) v then siftUpF fuel (a.set h (hget a p)) p v
      else a.set h v

/-- `std::__push_heap` at hole `h` with carried value `v`. -/
def siftUpV (a : List Derivation) (h : Nat) (v : Derivation) : List Derivation :=
  siftUpF h a h v

/-- `priority_queue::push`: append, then `push_heap`. -/
def heapPush (a : List Derivation) (v : Derivation) : List Derivation :=
  siftUpV (a ++ [v]) a.length v

/-- The hole-descent loop of `std::__adjust_heap`: while the hole has two
children, move the larger child up (the right child on ties); afterwards, if
the hole is the unique node with a single (left) child, move that child up.
Returns the updated array and the final hole position. -/
def holeDescend (a : List Derivation) (h len fuel : Nat) : List Derivation × Nat :=
  match fuel with
  | 0 => (a, h)
  | fuel + 1 =>
    if h < (len - 1) / 2 then
      let r := 2 * (h + 1)
      let c := if DerivationOrderer (hget a r) (hget a (r - 1)) then r - 1 else r
      holeDescend (a.set h (hget a c)) c len fuel
    else if len % 2 == 0 && h == (len - 2) / 2 then
      (a.set h (hget a (2 * h + 1)), 2 * h + 1)
    else (a, h)

/-- `std::__adjust_heap` on the whole array: hole-descent from the root, then
sift the carried value up from the final hole. -/
def adjustHeap (a : List Derivation) (v : Derivation) : List Derivation :=
  let dh := holeDescend a 0 a.length a.length
  siftUpV dh.1 dh.2 v

/-- `priority_queue::pop`: `pop_heap` then `pop_back`.  Returns the popped
root and the remaining array. -/
def heapPop (a : List Derivation) : Option (Derivation × List Derivation) :=
  match a with
  | [] => none
  | [x] => some (x, [])
  | _ :: _ :: _ =>
    some (hget a 0, adjustHeap (a.take (a.length - 1)) (hget a (a.length - 1)))

/-- The binary-heap shape invariant of the array: every non-root entry
compares `≤` its parent on score. -/
def heapD (a : List Derivation) : Prop :=
  ∀ i, 0 < i → i < a.length → (hget a i).score ≤ (hget a (parentIdx i)).score

instance : DecidablePred heapD := fun a =>
  decidable_of_iff (∀ i < a.length, 0 < i → (hget a i).score ≤ (hget a (parentIdx i)).score)
    (by unfold heapD; exact ⟨fun h i h1 h2 => h i h2 h1, fun h i h2 h1 => h i h1 h2⟩)

/-- A concrete derivation for witnesses: score `s`, identity tag `i` in the
back-pointer list. -/
def sampleD (s : Int) (i : Nat) : Derivation :=
  ⟨⟨0, [], s, []⟩, [i], s, []⟩

/-! ## Part D — the lazy k-best algorithm

The implementation file `ChartKBestExtractor.cpp` is not part of this
excerpt; only its declarations in the header are.  The bodies of
`GetCandidates`, `LazyKthBest`, `LazyNext` and `Extract` below are therefore
modelled from the spec (sections 4.1–4.4), over the header's data model.  The
search hypergraph is the extractor's input: each vertex identity maps to the
list of its incoming hyperedges. -/

structure Hypergraph where
  edges : List (Nat × List Hyperedge)
deriving DecidableEq, Repr

def Hypergraph.edgesOf (g : Hypergraph) (vid : Nat) : List Hyperedge :=
  (g.edges.lookup vid).getD []

/-- The acyclicity witness the algorithm relies on (§9): tail vertices live
strictly below their head in some rank function. -/
def Ranked (g : Hypergraph) (rk : Nat → Nat) : Prop :=
  ∀ p ∈ g.edges, ∀ e ∈ p.2, ∀ u ∈ e.tail, rk u < rk p.1

structure VertexState where
  kBestList : List Derivation
  candidates : List Derivation
  seen : List DerivId
  visited : Bool
deriving DecidableEq, Repr

def VertexState.init : VertexState :=
  ⟨[], [], [], false⟩

/-- The vertex map of one extraction call (`m_vertexMap`): vertex identity to
memo state, as an association list; absent vertices carry `init`. -/
def KState : Type :=
  List (Nat × VertexState)

def initState : KState :=
  []

/-- Read a vertex's state (`FindOrCreateVertex` read side: one memo node per
distinct hypothesis; unregistered vertices are fresh). -/
def getV : KState → Nat → VertexState
  | [], _ => VertexState.init
  | (w, v) :: rest, vid => if vid = w then v else getV rest vid

def setV : KState → Nat → VertexState → KState
  | [], vid, v => [(vid, v)]
  | (w, u) :: rest, vid, v =>
    if vid = w then (vid, v) :: rest else (w, u) :: setV rest vid v

/-- Pointwise sum of two score-breakdown vectors
(`ScoreComponentCollection::PlusEquals`). -/
def vecAdd : List Int → List Int → List Int
  | [], ys => ys
  | x :: xs, [] => x :: xs
  | x :: xs, y :: ys => (x + y) :: vecAdd xs ys

def sumScores (ds : List Derivation) : Int :=
  (ds.map (fun d => d.score)).sum

def sumBreakdowns (ds : List Derivation) : List Int :=
  ds.foldl (fun acc d => vecAdd acc d.scoreBreakdown) []

/-- The child derivations selected by the back-pointer ranks: for each tail
vertex, the derivation at the given rank of its current `kBestList`; fails if
any rank is not yet materialised. -/
def childDerivs (st : KState) : List Nat → List Nat → Option (List Derivation)
  | [], [] => some []
  | u :: us, r :: rs =>
    match ((getV st u).kBestList)[r]?, childDerivs st us rs with
    | some d, some ds => some (d :: ds)
    | _, _ => none
  | _ :: _, [] => none
  | [], _ :: _ => none

/-- Modelled from the spec (§4.1, base path): `Derivation::Derivation(const
UnweightedHyperarc &)` — back-pointers all zero, score and breakdown the
hyperarc's own contribution plus the referenced children's. -/
def mkBase (st : KState) (e : Hyperedge) : Option Derivation :=
  match childDerivs st e.tail (List.replicate e.tail.length 0) with
  | none => none
  | some cs => some ⟨e, List.replicate e.tail.length 0,
      e.score + sumScores cs, vecAdd e.breakdown (sumBreakdowns cs)⟩

/-- Modelled from the spec (§4.1, successor path): `Derivation::Derivation(
const Derivation &, std::size_t)` — identical except back-pointer `i` is
incremented; fails if the incremented child rank is not materialised. -/
def mkSuccessor (st : KState) (d : Derivation) (i : Nat) : Option Derivation :=
  let bp2 := d.backPointers.set i (d.backPointers.getD i 0 + 1)
  match childDerivs st d.edge.tail bp2 with
  | none => none
  | some cs => some ⟨d.edge, bp2, d.edge.score + sumScores cs,
      vecAdd d.edge.breakdown (sumBreakdowns cs)⟩

/-- Push a derivation onto a vertex's frontier unless its structural identity
was already enqueued at some point (`seen`). -/
def pushCandidate (st : KState) (vid : Nat) (d : Derivation) : KState :=
  let v := getV st vid
  if derivId d ∈ v.seen then st
  else setV st vid { v with candidates := heapPush v.candidates d,
                            seen := v.seen ++ [derivId d] }

/-- Seeding inner loop over one hyperedge's tail: ensure each tail vertex has
its rank-0 derivation (`kb` is the recursive `LazyKthBest` at lower fuel). -/
def seedTailsP (kb : Nat → Nat → KState → KState) : List Nat → KState → KState
  | [], st => st
  | u :: us, st => seedTailsP kb us (kb u 0 st)

/-- Seeding loop over a vertex's incoming hyperedges (§4.3 `GetCandidates`):
recursively materialise each tail vertex's best derivation, then push the
hyperedge's base derivation if not seen. -/
def seedEdgesP (kb : Nat → Nat → KState → KState) (vid : Nat) :
    List Hyperedge → KState → KState
  | [], st => st
  | e :: rest, st =>
    let st1 := seedTailsP kb e.tail st
    let st2 := match mkBase st1 e with
      | none => st1
      | some d => pushCandidate st1 vid d
    seedEdgesP kb vid rest st2

/-- Successor loop of §4.3 `LazyNext`: for each back-pointer position of the
just-accepted derivation, materialise the next child rank and push the
successor if constructible and unseen. -/
def nextLoopP (kb : Nat → Nat → KState → KState) (vid : Nat) (d : Derivation) :
    List Nat → KState → KState
  | [], st => st
  | i :: is, st =>
    let u := d.edge.tail.getD i 0
    let st1 := kb u (d.backPointers.getD i 0 + 1) st
    let st2 := match mkSuccessor st1 d i with
      | none => st1
      | some d2 => pushCandidate st1 vid d2
    nextLoopP kb vid d is st2

/-- The pop-append loop of §4.3 `LazyKthBest`: while the list has at most `k`
entries and the frontier is non-empty, pop the best candidate, append it and
expand its successors (`nx`). -/
def kbLoopP (nx : Derivation → KState → KState) (vid k : Nat) :
    Nat → KState → KState
  | 0, st => st
  | n + 1, st =>
    let v := getV st vid
    if v.kBestList.length ≤ k then
      match heapPop v.candidates with
      | none => st
      | some (d, rest) =>
        let st1 := setV st vid { v with kBestList := v.kBestList ++ [d],
                                        candidates := rest }
        let st2 := nx d st1
        kbLoopP nx vid k n st2
    else st

/-- Modelled from the spec (§4.3): `ChartKBestExtractor::LazyKthBest(v, k)` —
ensure vertex `vid` has at least `k+1` ranked derivations if that many exist:
seed the frontier on first visit, then lazily pop/append/expand.  `fuel`
bounds the depth of the cross-vertex recursion; every nested call runs at
`fuel - 1`. -/
def LazyKthBest (g : Hypergraph) : Nat → Nat → Nat → KState → KState
  | 0, _, _, st => st
  | fuel + 1, vid, k, st =>
    let kb := fun u k2 st2 => LazyKthBest g fuel u k2 st2
    let st1 :=
      if (getV st vid).visited then st
      else
        let st0 := seedEdgesP kb vid (g.edgesOf vid) st
        setV st0 vid { getV st0 vid with visited := true }
    kbLoopP (fun d st2 => nextLoopP kb vid d (List.range d.backPointers.length) st2)
      vid k (k + 1) st1

/-- Modelled from the spec (§4.3): `ChartKBestExtractor::GetCandidates`. -/
def GetCandidates (g : Hypergraph) (fuel : Nat) (vid : Nat) (st : KState) : KState :=
  seedEdgesP (fun u k2 st2 => LazyKthBest g fuel u k2 st2) vid (g.edgesOf vid) st

/-- Modelled from the spec (§4.3): `ChartKBestExtractor::LazyNext`. -/
def LazyNext (g : Hypergraph) (fuel : Nat) (vid : Nat) (d : Derivation)
    (st : KState) : KState :=
  nextLoopP (fun u k2 st2 => LazyKthBest g fuel u k2 st2) vid d
    (List.range d.backPointers.length) st

def entryScore (st : KState) (p : Nat × Nat) : Int :=
  (hget (getV st p.1).kBestList p.2).score

/-- Pop the best-scoring entry of the root-merge frontier (first maximal in
list order), returning it and the remaining entries. -/
def pickBest (st : KState) : List (Nat × Nat) → Option ((Nat × Nat) × List (Nat × Nat))
  | [] => none
  | p :: ps =>
    match pickBest st ps with
    | none => some (p, [])
    | some (q, rest) =>
      if entryScore st p < entryScore st q then some (q, p :: rest)
      else some (p, ps)

/-- The merge loop of §4.4: pop the best `(root, rank)` entry, emit that
derivation, materialise the root's next rank and re-queue it if it exists. -/
def extractLoop (g : Hypergraph) (fuel : Nat) :
    Nat → KState → List (Nat × Nat) → List Derivation
  | 0, _, _ => []
  | k + 1, st, frontier =>
    match pickBest st frontier with
    | none => []
    | some ((root, rank), rest) =>
      let d := hget (getV st root).kBestList rank
      let st2 := LazyKthBest g fuel root (rank + 1) st
      let frontier2 :=
        if rank + 1 < (getV st2 root).kBestList.length then rest ++ [(root, rank + 1)]
        else rest
      d :: extractLoop g fuel k st2 frontier2

/-- Modelled from the spec (§4.4): `ChartKBestExtractor::Extract(topHypos, k)`
— create each root's vertex, seed the merge frontier with every root's rank-0
derivation, and merge-pop `k` times or until exhaustion. -/
def Extract (g : Hypergraph) (fuel : Nat) (topHypos : List Nat) (k : Nat) :
    List Derivation :=
  let st1 := topHypos.foldl (fun st root => LazyKthBest g fuel root 0 st) initState
  let frontier0 := topHypos.foldr
    (fun root acc => if 0 < (getV st1 root).kBestList.length then (root, 0) :: acc else acc) []
  extractLoop g fuel k st1 frontier0

/-- Scores are non-increasing along a list of derivations. -/
def ScoresNonInc (l : List Derivation) : Prop :=
  l.Chain' (fun d1 d2 => d2.score ≤ d1.score)

/-- Append-only growth of every vertex's ranked list. -/
def Extends (st st2 : KState) : Prop :=
  ∀ w, (getV st w).kBestList <+: (getV st2 w).kBestList

/-- Well-formedness of one derivation at a vertex in a state: its hyperarc is
one of the vertex's incoming hyperedges, back-pointers match the tail, the
referenced child derivations are materialised, and its cached score is the
hyperarc's own score plus the children's. -/
def derivWF (g : Hypergraph) (st : KState) (vid : Nat) (d : Derivation) : Prop :=
  d.edge ∈ g.edgesOf vid ∧
  d.backPointers.length = d.edge.tail.length ∧
  ∃ cs, childDerivs st d.edge.tail d.backPointers = some cs ∧
    d.score = d.edge.score + sumScores cs

/-- The per-vertex invariant of Algorithm 3 (§8's testable properties):
ranked list sorted, frontier heap-shaped and dominated by the last accepted
rank, everything well-formed, structural identities pairwise distinct and
recorded in `seen`, `seen` exactly the identities ever enqueued, and unvisited
vertices empty. -/
structure VertexInv (g : Hypergraph) (st : KState) (vid : Nat) : Prop where
  sorted : ScoresNonInc (getV st vid).kBestList
  cheap : heapD (getV st vid).candidates
  cand_le : ∀ d ∈ (getV st vid).candidates, ∀ last,
    (getV st vid).kBestList.getLast? = some last → d.score ≤ last.score
  wf_kb : ∀ d ∈ (getV st vid).kBestList, derivWF g st vid d
  wf_cand : ∀ d ∈ (getV st vid).candidates, derivWF g st vid d
  dist : ((getV st vid).kBestList ++ (getV st vid).candidates).Pairwise
    (fun x y => derivId x ≠ derivId y)
  mem_seen : ∀ d ∈ (getV st vid).kBestList ++ (getV st vid).candidates,
    derivId d ∈ (getV st vid).seen
  seen_sub : ∀ idd ∈ (getV st vid).seen,
    ∃ d ∈ (getV st vid).kBestList ++ (getV st vid).candidates, derivId d = idd
  seen_nodup : (getV st vid).seen.Nodup
  unvisited : (getV st vid).visited = false → (getV st vid).kBestList = []

def Inv (g : Hypergraph) (st : KState) : Prop :=
  ∀ vid, VertexInv g st vid

/-- The recursive callback (`LazyKthBest` one fuel level down) preserves the
invariant and grows the state append-only. -/
def KBPres (g : Hypergraph) (kb : Nat → Nat → KState → KState) : Prop :=
  ∀ u k st, Inv g st → Inv g (kb u k st) ∧ Extends st (kb u k st)

/-- The recursive callback leaves every vertex strictly above its subject
unchanged (the frame property of the DAG recursion). -/
def KBFrame (g : Hypergraph) (rk : Nat → Nat) (kb : Nat → Nat → KState → KState) :
    Prop :=
  ∀ u k st w, Inv g st → rk u < rk w → getV (kb u k st) w = getV st w

/-- The recursive callback never removes identities from any vertex's `seen`
list. -/
def KBSeen (kb : Nat → Nat → KState → KState) : Prop :=
  ∀ u k st w, (getV st w).seen ⊆ (getV (kb u k st) w).seen

/-- Number of derivations of a vertex, computed to a recursion depth `fuel`:
one derivation per incoming hyperedge and per combination of child
derivations. -/
def countD (g : Hypergraph) : Nat → Nat → Nat
  | 0, _ => 0
  | fuel + 1, vid =>
    ((g.edgesOf vid).map (fun e => (e.tail.map (countD g fuel)).prod)).sum

/-- The stabilised derivation count of a vertex of an acyclic (ranked)
hypergraph. -/
def DvOf (g : Hypergraph) (rk : Nat → Nat) (u : Nat) : Nat :=
  countD g (rk u + 1) u

/-- All back-pointer tuples below the given per-position bounds, ordered
lexicographically. -/
def bpTuples : List Nat → List (List Nat)
  | [] => [[]]
  | b :: bs => (List.range b).flatMap (fun r => (bpTuples bs).map (fun t => r :: t))

/-- Every structural identity of a derivation of `vid`, given the per-vertex
derivation counts `Dv`. -/
def allIdsF (g : Hypergraph) (Dv : Nat → Nat) (vid : Nat) : List DerivId :=
  (g.edgesOf vid).flatMap
    (fun e => (bpTuples (e.tail.map Dv)).map (fun bp => ⟨e.head, e.tail, bp⟩))

def baseIdOf (e : Hyperedge) : DerivId :=
  ⟨e.head, e.tail, List.replicate e.tail.length 0⟩

def succIdOf (d : Derivation) (i : Nat) : DerivId :=
  ⟨d.edge.head, d.edge.tail, d.backPointers.set i (d.backPointers.getD i 0 + 1)⟩

/-- No two incoming hyperedges of any vertex share the same structural
identity (head and tail) — required for the enumeration to be loss-free,
since the dedup set identifies derivations by (head, tail, back-pointers). -/
def EdgeIdsDistinct (g : Hypergraph) : Prop :=
  ∀ vid, (g.edgesOf vid).Pairwise (fun e1 e2 => e1.head ≠ e2.head ∨ e1.tail ≠ e2.tail)

/-- The closure property of one visited vertex: every constructible base
identity has been enqueued, and every valid successor of an accepted
derivation has been enqueued. -/
def VComplete (g : Hypergraph) (Dv : Nat → Nat) (st : KState) (vid : Nat) : Prop :=
  (getV st vid).visited = true →
    (∀ e ∈ g.edgesOf vid, (∀ u ∈ e.tail, 0 < Dv u) →
      baseIdOf e ∈ (getV st vid).seen) ∧
    (∀ d ∈ (getV st vid).kBestList, ∀ i, i < d.backPointers.length →
      d.backPointers.getD i 0 + 1 < Dv (d.edge.tail.getD i 0) →
      succIdOf d i ∈ (getV st vid).seen)

/-- The closure property for all vertices whose rank lies below `R`. -/
def CompleteBelow (g : Hypergraph) (rk : Nat → Nat) (Dv : Nat → Nat) (R : Nat)
    (st : KState) : Prop :=
  ∀ vid, rk vid < R → VComplete g Dv st vid

/-- The closure property for every vertex. -/
def CompleteAll (g : Hypergraph) (Dv : Nat → Nat) (st : KState) : Prop :=
  ∀ vid, VComplete g Dv st vid

/-- The callback materialises at least `min (k+1) (Dv u)` ranks at its
subject and preserves the closure property below and at the subject. -/
def KBComplete (g : Hypergraph) (rk : Nat → Nat) (Dv : Nat → Nat) (R : Nat)
    (kb : Nat → Nat → KState → KState) : Prop :=
  ∀ u k st, rk u < R → Inv g st → CompleteBelow g rk Dv (rk u + 1) st →
    CompleteBelow g rk Dv (rk u + 1) (kb u k st) ∧
    min (k + 1) (Dv u) ≤ (getV (kb u k st) u).kBestList.length

/-- The total number of derivations reachable from the given root sequence. -/
def totalDerivations (g : Hypergraph) (rk : Nat → Nat) (topHypos : List Nat) : Nat :=
  (topHypos.map (DvOf g rk)).sum

/-- Concrete example hypergraph: one root vertex `0` with a single incoming
hyperedge (no tail), local score 7. -/
def gEx : Hypergraph :=
  ⟨[(0, [⟨100, [], 7, []⟩])]⟩

/-- Concrete example: root `0` over one non-terminal child `1` that has two
ranked derivations. -/
def gEx2 : Hypergraph :=
  ⟨[(0, [⟨100, [1], 10, [10]⟩]), (1, [⟨101, [], 2, [2]⟩, ⟨102, [], 1, [1]⟩])]⟩

/-- Concrete state in which vertex `1` already has two ranked derivations. -/
def stEx : KState :=
  [(1, ⟨[sampleD 2 5, sampleD 1 6], [], [], true⟩)]

/-- Concrete state whose vertex `0` has already seen one identity. -/
def stSeen : KState :=
  [(0, ⟨[], [], [derivId (sampleD 1 0)], false⟩)]

/-- A rank function witnessing that `gEx2` is acyclic: the root `0` sits at
rank 1, every other vertex at rank 0. -/
def rkEx2 : Nat → Nat :=
  fun v => 1 - v

/-! ## Proofs — list get/set helpers -/

lemma hget_eq_getElem? (a : List Derivation) (i : Nat) :
    hget a i = (a[i]?).getD default := by
  simp [hget, List.getD_eq_getElem?_getD]

lemma hget_set_self {a : List Derivation} {i : Nat} {v : Derivation}
    (h : i < a.length) : hget (a.set i v) i = v := by
  rw [hget_eq_getElem?, List.getElem?_set_self' ]
  simp [List.getElem?_eq_getElem h]

lemma hget_set_other {a : List Derivation} {i j : Nat} {v : Derivation}
    (h : i ≠ j) : hget (a.set i v) j = hget a j := by
  rw [hget_eq_getElem?, hget_eq_getElem?, List.getElem?_set_ne h]

lemma hget_take {a : List Derivation} {m i : Nat} (h : i < m) :
    hget (a.take m) i = hget a i := by
  rw [hget_eq_getElem?, hget_eq_getElem?, List.getElem?_take]
  simp [h]

lemma hget_append_left {a b : List Derivation} {i : Nat} (h : i < a.length) :
    hget (a ++ b) i = hget a i := by
  rw [hget_eq_getElem?, hget_eq_getElem?, List.getElem?_append]
  simp [h]

lemma hget_append_last {a : List Derivation} {v : Derivation} :
    hget (a ++ [v]) a.length = v := by
  rw [hget_eq_getElem?]
  simp

lemma set_hget_self : ∀ (a : List Derivation) (i : Nat), a.set i (hget a i) = a := by
  intro a
  induction a with
  | nil => intro i; simp
  | cons z t ih =>
    intro i
    cases i with
    | zero => simp [hget]
    | succ i =>
      simp only [List.set_cons_succ, List.cons.injEq, true_and]
      have : hget (z :: t) (i + 1) = hget t i := by simp [hget]
      rw [this, ih]

lemma cons_set_perm : ∀ (t : List Derivation) (j : Nat) (X Y : Derivation),
    j < t.length → List.Perm (X :: t.set j Y) (Y :: t.set j X) := by
  intro t
  induction t with
  | nil => intro j X Y hj; simp at hj
  | cons z t ih =>
    intro j X Y hj
    cases j with
    | zero =>
      simpa using List.Perm.swap Y X t
    | succ j =>
      have h1 : List.Perm (X :: z :: t.set j Y) (z :: X :: t.set j Y) :=
        List.Perm.swap z X _
      have h2 : List.Perm (z :: X :: t.set j Y) (z :: Y :: t.set j X) :=
        List.Perm.cons z (ih j X Y (by simpa using hj))
      have h3 : List.Perm (z :: Y :: t.set j X) (Y :: z :: t.set j X) :=
        List.Perm.swap Y z _
      simpa using (h1.trans h2).trans h3

lemma set_set_swap_perm : ∀ (a : List Derivation) (i j : Nat) (x y : Derivation),
    i ≠ j → i < a.length → j < a.length →
    List.Perm ((a.set i x).set j y) ((a.set i y).set j x) := by
  intro a
  induction a with
  | nil => intro i j x y hij hi hj; simp at hi
  | cons z t ih =>
    intro i j x y hij hi hj
    cases i with
    | zero =>
      cases j with
      | zero => exact absurd rfl hij
      | succ j =>
        simpa using cons_set_perm t j x y (by simpa using hj)
    | succ i =>
      cases j with
      | zero =>
        simpa using cons_set_perm t i y x (by simpa using hi)
      | succ j =>
        simp only [List.set_cons_succ]
        exact List.Perm.cons z
          (ih i j x y (fun hc => hij (by rw [hc])) (by simpa using hi) (by simpa using hj))

/-! ## Proofs — Part C: the priority queue -/

lemma orderer_iff (d1 d2 : Derivation) :
    DerivationOrderer d1 d2 = true ↔ d1.score < d2.score := by
  simp [DerivationOrderer]

lemma parentIdx_lt {h : Nat} (hh : 0 < h) : parentIdx h < h := by
  have := Nat.div_le_self (h - 1) 2
  unfold parentIdx
  omega

lemma siftUpF_fuel_irrel : ∀ (fuel h : Nat) (a : List Derivation) (v : Derivation),
    h ≤ fuel → siftUpF fuel a h v = siftUpF h a h v := by
  intro fuel
  induction fuel using Nat.strong_induction_on with
  | _ fuel IH =>
    intro h a v hle
    rcases Nat.eq_zero_or_pos fuel with hf0 | hfpos
    · subst hf0
      have : h = 0 := by omega
      rw [this]
    · obtain ⟨f, hf⟩ : ∃ f, fuel = f + 1 := ⟨fuel - 1, by omega⟩
      subst hf
      by_cases h0 : h = 0
      · subst h0
        rfl
      · have hpos : 0 < h := Nat.pos_of_ne_zero h0
        have hplt : parentIdx h < h := parentIdx_lt hpos
        obtain ⟨m, hm⟩ : ∃ m, h = m + 1 := ⟨h - 1, by omega⟩
        subst hm
        show siftUpF (f + 1) a (m + 1) v = siftUpF (m + 1) a (m + 1) v
        rw [siftUpF, siftUpF]
        simp only [h0, if_false]
        by_cases hcmp : DerivationOrderer (hget a (parentIdx (m + 1))) v = true
        · rw [if_pos hcmp, if_pos hcmp,
            IH f (by omega) (parentIdx (m + 1)) _ v (by omega),
            IH m (by omega) (parentIdx (m + 1)) _ v (by omega)]
        · rw [if_neg hcmp, if_neg hcmp]

lemma siftUpV_unfold (a : List Derivation) (h : Nat) (v : Derivation) :
    siftUpV a h v = if h = 0 then a.set 0 v
      else if DerivationOrderer (hget a (parentIdx h)) v
        then siftUpV (a.set h (hget a (parentIdx h))) (parentIdx h) v
      else a.set h v := by
  by_cases h0 : h = 0
  · subst h0
    rw [if_pos rfl]
    rfl
  · obtain ⟨m, hm⟩ : ∃ m, h = m + 1 := ⟨h - 1, by omega⟩
    subst hm
    rw [if_neg h0]
    show siftUpF (m + 1) a (m + 1) v = _
    rw [siftUpF]
    simp only [h0, if_false]
    by_cases hcmp : DerivationOrderer (hget a (parentIdx (m + 1))) v = true
    · rw [if_pos hcmp, if_pos hcmp]
      unfold siftUpV
      exact siftUpF_fuel_irrel m (parentIdx (m + 1)) _ v
        (by have := parentIdx_lt (show 0 < m + 1 by omega); omega)
    · rw [if_neg hcmp, if_neg hcmp]

lemma siftUpV_perm : ∀ (h : Nat) (a : List Derivation) (v : Derivation), h < a.length →
    List.Perm (siftUpV a h v) (a.set h v) := by
  intro h
  induction h using Nat.strong_induction_on with
  | _ h IH =>
    intro a v hh
    rw [siftUpV_unfold]
    by_cases h0 : h = 0
    · subst h0; simp
    · rw [if_neg h0]
      set p := parentIdx h with hp
      have hplt : p < h := parentIdx_lt (Nat.pos_of_ne_zero h0)
      by_cases hcmp : DerivationOrderer (hget a p) v = true
      · rw [if_pos hcmp]
        have hlen : p < (a.set h (hget a p)).length := by
          simp [List.length_set]; omega
        have step := IH p hplt (a.set h (hget a p)) v hlen
        refine step.trans ?_
        have hswap := set_set_swap_perm a h p (hget a p) v (by omega) hh (by omega)
        refine hswap.trans ?_
        have hval : hget a p = hget (a.set h v) p := (hget_set_other (by omega)).symm
        rw [hval, set_hget_self]
      · simp [hcmp]

lemma siftUpV_length (h : Nat) (a : List Derivation) (v : Derivation) (hh : h < a.length) :
    (siftUpV a h v).length = a.length := by
  have := (siftUpV_perm h a v hh).length_eq
  simpa [List.length_set] using this

lemma siftUpV_heapD : ∀ (h : Nat) (a : List Derivation) (v : Derivation), h < a.length →
    (∀ i, 0 < i → i < a.length → i ≠ h →
      (hget (a.set h v) i).score ≤ (hget (a.set h v) (parentIdx i)).score) →
    (0 < h → ∀ c, c < a.length → parentIdx c = h → c ≠ h →
      (hget a c).score ≤ (hget a (parentIdx h)).score) →
    heapD (siftUpV a h v) := by
  intro h
  induction h using Nat.strong_induction_on with
  | _ h IH =>
    intro a v hh hex hgp
    rw [siftUpV_unfold]
    by_cases h0 : h = 0
    · subst h0
      rw [if_pos rfl]
      intro i hi hlen
      have hlen' : i < a.length := by simpa [List.length_set] using hlen
      exact hex i hi hlen' (by omega)
    · rw [if_neg h0]
      set p := parentIdx h with hp
      have hplt : p < h := parentIdx_lt (Nat.pos_of_ne_zero h0)
      by_cases hcmp : DerivationOrderer (hget a p) v = true
      · rw [if_pos hcmp]
        have hvp : (hget a p).score < v.score := (orderer_iff _ _).mp hcmp
        set a' := a.set h (hget a p) with ha'
        have hlen' : p < a'.length := by simp [ha', List.length_set]; omega
        apply IH p hplt a' v hlen'
        · -- hExcept for (a'.set p v) at hole p
          intro i hi hilen hip
          have hilen0 : i < a.length := by simpa [ha', List.length_set] using hilen
          have hchild : parentIdx i < i := parentIdx_lt hi
          by_cases hih : i = h
          · -- i = h: value a[p] le value at parent h = p, which holds v
            have e1 : hget ((a.set h (hget a p)).set p v) i = hget a p := by
              rw [hget_set_other (by omega), hih, hget_set_self hh]
            have e2 : hget ((a.set h (hget a p)).set p v) (parentIdx i) = v := by
              rw [hih, ← hp, hget_set_self]
              simp [List.length_set]; omega
            rw [e1, e2]
            exact le_of_lt hvp
          · by_cases hpar : parentIdx i = h
            · -- i is a child of h (other than h): grandparent condition
              have e1 : hget ((a.set h (hget a p)).set p v) i = hget a i := by
                rw [hget_set_other (by omega), hget_set_other (by omega)]
              have e2 : hget ((a.set h (hget a p)).set p v) (parentIdx i) = hget a p := by
                rw [hpar, hget_set_other (by omega), hget_set_self hh]
              rw [e1, e2]
              exact hgp (Nat.pos_of_ne_zero h0) i hilen0 hpar hih
            · -- untouched pair: use hex
              have e1 : hget ((a.set h (hget a p)).set p v) i = hget (a.set h v) i := by
                rw [hget_set_other (by omega), hget_set_other (by omega),
                  hget_set_other (by omega)]
              by_cases hpp : parentIdx i = p
              · have e2 : hget ((a.set h (hget a p)).set p v) (parentIdx i) = v := by
                  rw [hpp, hget_set_self]
                  simp [List.length_set]; omega
                rw [e1, e2]
                have h1 := hex i hi hilen0 hih
                have h2 : (hget (a.set h v) (parentIdx i)).score ≤ v.score := by
                  rw [hget_set_other (by omega), hpp]
                  exact le_of_lt hvp
                exact le_trans h1 h2
              · have e2 : hget ((a.set h (hget a p)).set p v) (parentIdx i)
                    = hget (a.set h v) (parentIdx i) := by
                  rw [hget_set_other (by omega), hget_set_other (by omega),
                    hget_set_other (by omega)]
                rw [e1, e2]
                exact hex i hi hilen0 hih
        · -- grandparent condition for hole p
          intro hppos c hclen hcp hcnep
          have hclen0 : c < a.length := by simpa [ha', List.length_set] using hclen
          have hcgt : p < c := by
            have := parentIdx_lt (show 0 < c by
              rcases Nat.eq_zero_or_pos c with hc0 | hc; · subst hc0; simp [parentIdx] at hcp; omega
              exact hc)
            omega
          have hgne : parentIdx p ≠ h := by
            have := parentIdx_lt hppos
            omega
          have egp : hget a' (parentIdx p) = hget a (parentIdx p) := by
            rw [ha', hget_set_other (by omega)]
          by_cases hch : c = h
          · -- child h of p now holds a[p]
            have e1 : hget a' c = hget a p := by rw [ha', hch, hget_set_self hh]
            rw [e1, egp]
            -- a[p] ≤ a[parent p] from original heap pair (p, parent p) via hex
            have := hex p hppos (by omega) (by omega)
            rw [hget_set_other (by omega), hget_set_other (by omega)] at this
            exact this
          · -- sibling of h below p
            have e1 : hget a' c = hget a c := by rw [ha', hget_set_other (by omega)]
            rw [e1, egp]
            have h1 : (hget a c).score ≤ (hget a p).score := by
              have := hex c (by omega) hclen0 hch
              rw [hget_set_other (fun hc => hch hc.symm), hcp,
                hget_set_other (by omega)] at this
              exact this
            have h2 : (hget a p).score ≤ (hget a (parentIdx p)).score := by
              have := hex p hppos (by omega) (by omega)
              rw [hget_set_other (by omega), hget_set_other (by omega)] at this
              exact this
            exact le_trans h1 h2
      · -- stop: v le a[p], writing v at h keeps the heap
        rw [if_neg hcmp]
        intro i hi hilen
        have hilen0 : i < a.length := by simpa [List.length_set] using hilen
        by_cases hih : i = h
        · have e1 : hget (a.set h v) i = v := by rw [hih, hget_set_self hh]
          have e2 : hget (a.set h v) (parentIdx i) = hget a (parentIdx i) := by
            rw [hget_set_other]
            have := parentIdx_lt hi
            omega
          rw [e1, e2]
          have hnlt : ¬((hget a p).score < v.score) := by
            intro hc
            exact hcmp ((orderer_iff _ _).mpr hc)
          rw [hih, ← hp]
          omega
        · exact hex i hi hilen0 hih

lemma heapD_take {a : List Derivation} (ha : heapD a) (m : Nat) : heapD (a.take m) := by
  intro i hi hilen
  have hmin : (a.take m).length = min m a.length := by simp
  rw [hmin] at hilen
  have h1 : i < m := by omega
  have h2 : i < a.length := by omega
  have hpar : parentIdx i < i := parentIdx_lt hi
  rw [hget_take h1, hget_take (by omega)]
  exact ha i hi h2

lemma heapD_le_root {a : List Derivation} (ha : heapD a) :
    ∀ i, i < a.length → (hget a i).score ≤ (hget a 0).score := by
  intro i
  induction i using Nat.strong_induction_on with
  | _ i IH =>
    intro hilen
    rcases Nat.eq_zero_or_pos i with h0 | hpos
    · subst h0; exact le_refl _
    · have hpar : parentIdx i < i := parentIdx_lt hpos
      exact le_trans (ha i hpos hilen) (IH (parentIdx i) hpar (by omega))

lemma heapD_mem_le_root {a : List Derivation} (ha : heapD a) {d : Derivation}
    (hd : d ∈ a) : d.score ≤ (hget a 0).score := by
  rcases List.mem_iff_getElem.mp hd with ⟨i, hi, hval⟩
  have : hget a i = d := by
    rw [hget_eq_getElem?, List.getElem?_eq_getElem hi, hval]
    rfl
  rw [← this]
  exact heapD_le_root ha i hi

lemma holeDescend_spec : ∀ (fuel h len : Nat) (a : List Derivation),
    len = a.length → h < len → len ≤ fuel + h → heapD a →
    (holeDescend a h len fuel).2 < len ∧
    len ≤ 2 * (holeDescend a h len fuel).2 + 1 ∧
    heapD (holeDescend a h len fuel).1 ∧
    (holeDescend a h len fuel).1.length = len ∧
    (∀ x, List.Perm ((holeDescend a h len fuel).1.set (holeDescend a h len fuel).2 x)
      (a.set h x)) := by
  intro fuel
  induction fuel with
  | zero =>
    intro h len a hlen hh hfuel ha
    omega
  | succ fuel IH =>
    intro h len a hlen hh hfuel ha
    rw [holeDescend]
    by_cases hloop : h < (len - 1) / 2
    · -- two children exist
      simp only [hloop, if_true]
      set r := 2 * (h + 1) with hr
      set c := if DerivationOrderer (hget a r) (hget a (r - 1)) then r - 1 else r with hc
      have hdiv : 2 * ((len - 1) / 2) ≤ len - 1 := by omega
      have hcr : c = r - 1 ∨ c = r := by
        rw [hc]; split <;> simp
      have hcb : 2 * h + 1 ≤ c ∧ c ≤ 2 * h + 2 := by omega
      have hclt : c < len := by omega
      have hch : parentIdx c = h := by unfold parentIdx; omega
      have hcneh : c ≠ h := by omega
      set a2 := a.set h (hget a c) with ha2
      have hlen2 : len = a2.length := by simp [ha2, List.length_set, hlen]
      have hheap2 : heapD a2 := by
        intro i hi hilen2
        have hilen : i < a.length := by simpa [ha2, List.length_set] using hilen2
        have hpari : parentIdx i < i := parentIdx_lt hi
        by_cases hih : i = h
        · have e1 : hget a2 i = hget a c := by rw [ha2, hih, hget_set_self (by omega)]
          have e2 : hget a2 (parentIdx i) = hget a (parentIdx i) := by
            rw [ha2, hget_set_other (by omega)]
          rw [e1, e2, hih]
          have h1 : (hget a c).score ≤ (hget a h).score := by
            have := ha c (by omega) (by omega)
            rw [hch] at this
            exact this
          have h2 : (hget a h).score ≤ (hget a (parentIdx h)).score :=
            ha h (by omega) (by omega)
          exact le_trans h1 h2
        · by_cases hpih : parentIdx i = h
          · have e1 : hget a2 i = hget a i := by rw [ha2, hget_set_other (by omega)]
            have e2 : hget a2 (parentIdx i) = hget a c := by
              rw [hpih, ha2, hget_set_self (by omega)]
            rw [e1, e2]
            by_cases hic : i = c
            · rw [hic]
            · have hibnd : 2 * h + 1 ≤ i ∧ i ≤ 2 * h + 2 := by
                unfold parentIdx at hpih; omega
              rw [hc]
              by_cases hcmp : DerivationOrderer (hget a r) (hget a (r - 1)) = true
              · have hlt := (orderer_iff _ _).mp hcmp
                have hieq : i = r := by
                  rcases hcr with h1 | h1
                  · rw [hc] at hic; simp only [hcmp, if_true] at hic; omega
                  · rw [hc] at hic; simp only [hcmp, if_true] at hic; omega
                rw [hieq]
                simp only [hcmp, if_true]
                exact le_of_lt hlt
              · have hge : (hget a (r - 1)).score ≤ (hget a r).score := by
                  have hnot : ¬((hget a r).score < (hget a (r - 1)).score) := by
                    intro hcon
                    exact hcmp ((orderer_iff _ _).mpr hcon)
                  omega
                have hieq : i = r - 1 := by
                  rw [hc] at hic; simp only [hcmp, Bool.false_eq_true, if_false] at hic
                  omega
                rw [hieq]
                simp only [hcmp, Bool.false_eq_true, if_false]
                exact hge
          · have e1 : hget a2 i = hget a i := by rw [ha2, hget_set_other (by omega)]
            have e2 : hget a2 (parentIdx i) = hget a (parentIdx i) := by
              rw [ha2, hget_set_other (by omega)]
            rw [e1, e2]
            exact ha i hi hilen
      have hstep := IH c len a2 hlen2 hclt (by omega) hheap2
      refine ⟨hstep.1, hstep.2.1, hstep.2.2.1, hstep.2.2.2.1, ?_⟩
      intro x
      refine (hstep.2.2.2.2 x).trans ?_
      have hswap := set_set_swap_perm a h c (hget a c) x (by omega) (by omega) (by omega)
      refine hswap.trans ?_
      have hxc : hget a c = hget (a.set h x) c := (hget_set_other (by omega)).symm
      rw [hxc, set_hget_self]
    · simp only [hloop, if_false]
      by_cases hsingle : (len % 2 == 0 && h == (len - 2) / 2) = true
      · -- exactly one (left) child: move it up, hole becomes the leaf
        simp only [hsingle, if_true]
        have hfacts : len % 2 = 0 ∧ h = (len - 2) / 2 := by
          simpa [Bool.and_eq_true, beq_iff_eq] using hsingle
        set c := 2 * h + 1 with hc
        have hclt : c < len := by omega
        have hch : parentIdx c = h := by unfold parentIdx; omega
        have hcneh : c ≠ h := by omega
        refine ⟨by omega, by omega, ?_, by simp [List.length_set, hlen], ?_⟩
        · intro i hi hilen2
          have hilen : i < a.length := by simpa [List.length_set] using hilen2
          have hpari : parentIdx i < i := parentIdx_lt hi
          by_cases hih : i = h
          · have e1 : hget (a.set h (hget a c)) i = hget a c := by
              rw [hih, hget_set_self (by omega)]
            have e2 : hget (a.set h (hget a c)) (parentIdx i) = hget a (parentIdx i) := by
              rw [hget_set_other (by omega)]
            rw [e1, e2, hih]
            have h1 : (hget a c).score ≤ (hget a h).score := by
              have := ha c (by omega) (by omega)
              rw [hch] at this
              exact this
            exact le_trans h1 (ha h (by omega) (by omega))
          · by_cases hpih : parentIdx i = h
            · have hieq : i = c := by unfold parentIdx at hpih; omega
              have e1 : hget (a.set h (hget a c)) i = hget a c := by
                rw [hieq, hget_set_other (by omega)]
              have e2 : hget (a.set h (hget a c)) (parentIdx i) = hget a c := by
                rw [hpih, hget_set_self (by omega)]
              rw [e1, e2]
            · have e1 : hget (a.set h (hget a c)) i = hget a i := by
                rw [hget_set_other (by omega)]
              have e2 : hget (a.set h (hget a c)) (parentIdx i) = hget a (parentIdx i) := by
                rw [hget_set_other (by omega)]
              rw [e1, e2]
              exact ha i hi hilen
        · intro x
          have hswap := set_set_swap_perm a h c (hget a c) x (by omega) (by omega) (by omega)
          refine hswap.trans ?_
          have hxc : hget a c = hget (a.set h x) c := (hget_set_other (by omega)).symm
          rw [hxc, set_hget_self]
      · -- the hole is already a leaf
        simp only [hsingle, Bool.false_eq_true, if_false]
        have hfacts : ¬(len % 2 = 0 ∧ h = (len - 2) / 2) := by
          simpa [Bool.and_eq_true, beq_iff_eq] using hsingle
        refine ⟨hh, ?_, ha, hlen.symm, fun x => List.Perm.refl _⟩
        omega

lemma set_append_last : ∀ (a : List Derivation) (v w : Derivation),
    (a ++ [v]).set a.length w = a ++ [w] := by
  intro a
  induction a with
  | nil => intro v w; rfl
  | cons z t ih => intro v w; simp [ih]

lemma adjustHeap_spec (a : List Derivation) (v : Derivation) (hne : a ≠ [])
    (ha : heapD a) :
    heapD (adjustHeap a v) ∧ List.Perm (adjustHeap a v) (a.set 0 v) := by
  have hlen0 : 0 < a.length := List.length_pos.mpr hne
  have hd := holeDescend_spec a.length 0 a.length a rfl hlen0 (by omega) ha
  unfold adjustHeap
  obtain ⟨hh2, hleaf, hheap1, hlen1, hperm1⟩ := hd
  constructor
  · apply siftUpV_heapD _ _ v (by omega)
    · intro i hi hilen hineq
      have hilen' : i < a.length := by omega
      have hpar_ne : (holeDescend a 0 a.length a.length).2 ≠ parentIdx i := by
        intro hcon
        have : 2 * (holeDescend a 0 a.length a.length).2 + 1 ≤ i := by
          unfold parentIdx at hcon
          omega
        omega
      rw [hget_set_other (fun hc => hineq hc.symm), hget_set_other hpar_ne]
      exact hheap1 i hi (by omega)
    · intro hpos c hclen hcpar hcne
      exfalso
      have : 2 * (holeDescend a 0 a.length a.length).2 + 1 ≤ c := by
        unfold parentIdx at hcpar
        omega
      omega
  · exact (siftUpV_perm _ _ v (by omega)).trans (hperm1 v)

lemma heapPush_perm (a : List Derivation) (v : Derivation) :
    List.Perm (heapPush a v) (v :: a) := by
  unfold heapPush
  have hlen : a.length < (a ++ [v]).length := by simp
  refine (siftUpV_perm a.length (a ++ [v]) v hlen).trans ?_
  rw [set_append_last]
  exact List.perm_append_singleton v a

lemma heapPush_heapD {a : List Derivation} (ha : heapD a) (v : Derivation) :
    heapD (heapPush a v) := by
  unfold heapPush
  have hlen : a.length < (a ++ [v]).length := by simp
  apply siftUpV_heapD a.length (a ++ [v]) v hlen
  · intro i hi hilen hineq
    rw [set_append_last]
    have hi' : i < a.length := by
      simp at hilen
      omega
    have hpar : parentIdx i < i := parentIdx_lt hi
    rw [hget_append_left hi', hget_append_left (by omega)]
    exact ha i hi hi'
  · intro hpos c hclen hcpar hcne
    exfalso
    have : 2 * a.length + 1 ≤ c := by
      unfold parentIdx at hcpar
      omega
    simp at hclen
    omega

lemma heapPop_spec {a : List Derivation} (ha : heapD a) {x : Derivation}
    {rest : List Derivation} (hpop : heapPop a = some (x, rest)) :
    x = hget a 0 ∧ heapD rest ∧ List.Perm a (x :: rest) := by
  match a, hpop with
  | [y], hpop =>
    have hx : x = y ∧ rest = [] := by
      simpa [heapPop] using ⟨congrArg (fun o => (Option.map Prod.fst o).getD default) hpop.symm,
        congrArg (fun o => (Option.map Prod.snd o).getD default) hpop.symm⟩
    obtain ⟨hx1, hx2⟩ := hx
    subst hx1
    subst hx2
    refine ⟨rfl, ?_, List.Perm.refl _⟩
    intro i hi hilen
    simp at hilen
  | y :: z :: t, hpop =>
    simp only [heapPop] at hpop
    obtain ⟨hx1, hx2⟩ : x = hget (y :: z :: t) 0 ∧
        rest = adjustHeap ((y :: z :: t).take ((y :: z :: t).length - 1))
          (hget (y :: z :: t) ((y :: z :: t).length - 1)) := by
      have h1 := congrArg (fun o => (Option.map Prod.fst o).getD default) hpop
      have h2 := congrArg (fun o => (Option.map Prod.snd o).getD default) hpop
      simp at h1 h2
      exact ⟨h1.symm, h2.symm⟩
    set a0 : List Derivation := y :: z :: t with ha0
    set b := a0.take (a0.length - 1) with hb
    set L := hget a0 (a0.length - 1) with hL
    have hbne : b ≠ [] := by
      rw [hb]
      simp [ha0]
    have hblen : 0 < b.length := List.length_pos.mpr hbne
    have hbheap : heapD b := heapD_take ha _
    have hadj := adjustHeap_spec b L hbne hbheap
    have hsplit : a0 = b ++ [L] := by
      have hd : a0.dropLast = b := by
        rw [hb, List.dropLast_eq_take]
      have hg : a0.getLast (by simp [ha0]) = L := by
        rw [hL, List.getLast_eq_getElem, hget_eq_getElem?,
          List.getElem?_eq_getElem (by simp [ha0])]
        rfl
      rw [← hd, ← hg]
      exact (List.dropLast_append_getLast _).symm
    have hlt01 : 0 < a0.length - 1 := by
      rw [ha0]
      simp
    have hx0 : x = hget b 0 := by
      rw [hx1, hb]
      exact (hget_take hlt01).symm
    refine ⟨hx1, hx2 ▸ hadj.1, ?_⟩
    -- x :: rest ~ x :: b.set 0 L ~ L :: b ~ b ++ [L] = a
    have p1 : List.Perm (x :: rest) (x :: b.set 0 L) := List.Perm.cons x (hx2 ▸ hadj.2)
    have p2 : List.Perm (x :: b.set 0 L) (L :: b.set 0 x) := cons_set_perm b 0 x L hblen
    have p3 : b.set 0 x = b := by
      rw [hx0, set_hget_self]
    have p4 : List.Perm (b ++ [L]) (L :: b) := List.perm_append_singleton L b
    rw [hsplit]
    refine p4.trans ?_
    have p5 : List.Perm (L :: b) (x :: b.set 0 L) := by
      rw [← p3]
      exact p2.symm
    exact p5.trans p1.symm

/-- C7: derivation equality is purely structural — true iff head, tail and
back-pointer sequences agree, independent of the other payload of the
hyperedge objects — and the hash is consistent with this equality. -/
theorem C7_structural_equality_and_hash_consistency :
    (∀ d1 d2 : Derivation, DerivationEqualityPred d1 d2 = true ↔
      (d1.edge.head = d2.edge.head ∧ d1.edge.tail = d2.edge.tail ∧
        d1.backPointers = d2.backPointers)) ∧
    (∀ d1 d2 : Derivation, DerivationEqualityPred d1 d2 = true →
      DerivationHasher d1 = DerivationHasher d2) := by
  have hiff : ∀ d1 d2 : Derivation, DerivationEqualityPred d1 d2 = true ↔
      (d1.edge.head = d2.edge.head ∧ d1.edge.tail = d2.edge.tail ∧
        d1.backPointers = d2.backPointers) := by
    intro d1 d2
    simp [DerivationEqualityPred, Bool.and_eq_true, and_assoc]
  refine ⟨hiff, ?_⟩
  intro d1 d2 h
  obtain ⟨h1, h2, h3⟩ := (hiff d1 d2).mp h
  unfold DerivationHasher
  rw [h1, h2, h3]

theorem C7_witness :
    (DerivationEqualityPred ⟨⟨1, [2, 3], 10, [1]⟩, [0, 1], 10, []⟩
        ⟨⟨1, [2, 3], 99, [7]⟩, [0, 1], 50, [2]⟩ = true) ∧
    DerivationHasher ⟨⟨1, [2, 3], 10, [1]⟩, [0, 1], 10, []⟩
      = DerivationHasher ⟨⟨1, [2, 3], 99, [7]⟩, [0, 1], 50, [2]⟩ :=
  ⟨by decide, C7_structural_equality_and_hash_consistency.2
    ⟨⟨1, [2, 3], 10, [1]⟩, [0, 1], 10, []⟩
    ⟨⟨1, [2, 3], 99, [7]⟩, [0, 1], 50, [2]⟩ (by decide)⟩

/-- C6 (amended): the frontier is a max-priority queue on score alone — push
preserves the heap shape, and pop of a well-shaped frontier returns an element
of maximal score, preserving the shape and the multiset of the remaining
entries; among equal scores the pop order follows the binary-heap layout, not
insertion order. -/
theorem C6_frontier_is_max_queue_on_score :
    ∀ (a : List Derivation) (v x : Derivation) (rest : List Derivation),
      heapD a →
      heapD (heapPush a v) ∧
      (heapPop a = some (x, rest) →
        (∀ d ∈ a, d.score ≤ x.score) ∧ heapD rest ∧ List.Perm a (x :: rest)) := by
  intro a v x rest ha
  refine ⟨heapPush_heapD ha v, ?_⟩
  intro hpop
  obtain ⟨hx, hrest, hperm⟩ := heapPop_spec ha hpop
  refine ⟨?_, hrest, hperm⟩
  intro d hd
  rw [hx]
  exact heapD_mem_le_root ha hd

theorem C6_witness :
    heapD [sampleD 5 0, sampleD 1 1] ∧
    (heapD (heapPush [sampleD 5 0, sampleD 1 1] (sampleD 3 2)) ∧
      (heapPop [sampleD 5 0, sampleD 1 1] = some (sampleD 5 0, [sampleD 1 1]) →
        (∀ d ∈ [sampleD 5 0, sampleD 1 1], d.score ≤ (sampleD 5 0).score) ∧
        heapD [sampleD 1 1] ∧
        List.Perm [sampleD 5 0, sampleD 1 1] (sampleD 5 0 :: [sampleD 1 1]))) :=
  ⟨by decide, C6_frontier_is_max_queue_on_score [sampleD 5 0, sampleD 1 1]
    (sampleD 3 2) (sampleD 5 0) [sampleD 1 1] (by decide)⟩

/-- C6 counterexample: four equal-score derivations are pushed in the order
0, 1, 2, 3 onto an empty frontier; the first two pops return the derivations
tagged 0 and then 2 — the candidate pushed third pops before the candidate
pushed second, so among equal scores insertion order does not break ties. -/
theorem C6_counterexample_fifo_tie_break :
    heapPush (heapPush (heapPush (heapPush [] (sampleD 1 0)) (sampleD 1 1)) (sampleD 1 2))
        (sampleD 1 3)
      = [sampleD 1 0, sampleD 1 1, sampleD 1 2, sampleD 1 3] ∧
    heapPop [sampleD 1 0, sampleD 1 1, sampleD 1 2, sampleD 1 3]
      = some (sampleD 1 0, [sampleD 1 2, sampleD 1 1, sampleD 1 3]) ∧
    heapPop [sampleD 1 2, sampleD 1 1, sampleD 1 3]
      = some (sampleD 1 2, [sampleD 1 1, sampleD 1 3]) := by
  decide

/-! ## Proofs — Part D support lemmas -/

lemma getV_setV (st : KState) (vid w : Nat) (v : VertexState) :
    getV (setV st vid v) w = if w = vid then v else getV st w := by
  induction st with
  | nil =>
    by_cases h : w = vid <;> simp [setV, getV, h]
  | cons p rest ih =>
    obtain ⟨w0, u⟩ := p
    by_cases h0 : vid = w0
    · subst h0
      by_cases h : w = vid <;> simp [setV, getV, h]
    · by_cases h : w = w0
      · subst h
        have : ¬w = vid := fun hc => h0 (by rw [← hc])
        simp [setV, getV, h0, this]
      · simp [setV, getV, h0, h, ih]

lemma Extends.refl (st : KState) : Extends st st :=
  fun w => List.prefix_refl _

lemma Extends.trans {s1 s2 s3 : KState} (h1 : Extends s1 s2) (h2 : Extends s2 s3) :
    Extends s1 s3 :=
  fun w => (h1 w).trans (h2 w)

lemma IsPrefix.getElem?_some {l1 l2 : List Derivation} (h : l1 <+: l2) {i : Nat}
    {x : Derivation} (hx : l1[i]? = some x) : l2[i]? = some x := by
  obtain ⟨t, ht⟩ := h
  have hi : i < l1.length := by
    by_contra hc
    rw [List.getElem?_eq_none (by omega)] at hx
    exact Option.noConfusion hx
  rw [← ht, List.getElem?_append]
  simp [hi, hx]

lemma childDerivs_mono {st st2 : KState} (hext : Extends st st2) :
    ∀ (us rs : List Nat) (cs : List Derivation),
      childDerivs st us rs = some cs → childDerivs st2 us rs = some cs := by
  intro us
  induction us with
  | nil =>
    intro rs cs h
    cases rs with
    | nil => simpa [childDerivs] using h
    | cons r rs => simp [childDerivs] at h
  | cons u us ih =>
    intro rs cs h
    cases rs with
    | nil => simp [childDerivs] at h
    | cons r rs =>
      simp only [childDerivs] at h ⊢
      cases hc : ((getV st u).kBestList)[r]? with
      | none => rw [hc] at h; simp at h
      | some d =>
        rw [hc] at h
        cases hrest : childDerivs st us rs with
        | none => rw [hrest] at h; simp at h
        | some ds =>
          rw [hrest] at h
          simp at h
          rw [IsPrefix.getElem?_some (hext u) hc, ih rs ds hrest]
          simpa using h

lemma derivWF_mono {g : Hypergraph} {st st2 : KState} {vid : Nat} {d : Derivation}
    (hext : Extends st st2) (h : derivWF g st vid d) : derivWF g st2 vid d := by
  obtain ⟨he, hl, cs, hcs, hsc⟩ := h
  exact ⟨he, hl, cs, childDerivs_mono hext _ _ _ hcs, hsc⟩

instance : IsTrans Derivation (fun d1 d2 => d2.score ≤ d1.score) :=
  ⟨fun _ _ _ h1 h2 => le_trans h2 h1⟩

lemma scoresNonInc_pairwise {l : List Derivation} (h : ScoresNonInc l) :
    l.Pairwise (fun d1 d2 => d2.score ≤ d1.score) :=
  (List.chain'_iff_pairwise.mp h)

lemma sorted_getElem?_le {l : List Derivation} (h : ScoresNonInc l) {i j : Nat}
    {x y : Derivation} (hij : i ≤ j) (hx : l[i]? = some x) (hy : l[j]? = some y) :
    y.score ≤ x.score := by
  rcases Nat.lt_or_ge i j with hlt | hge
  · have hp := scoresNonInc_pairwise h
    have hj : j < l.length := by
      by_contra hc
      rw [List.getElem?_eq_none (by omega)] at hy
      exact Option.noConfusion hy
    have hi : i < l.length := by omega
    have := (List.pairwise_iff_getElem.mp hp) i j hi hj hlt
    rw [List.getElem?_eq_getElem hi] at hx
    rw [List.getElem?_eq_getElem hj] at hy
    cases hx
    cases hy
    exact this
  · have : i = j := by omega
    subst this
    rw [hx] at hy
    cases hy
    exact le_refl _

lemma sorted_append_last {l : List Derivation} {d : Derivation} (h : ScoresNonInc l)
    (hd : ∀ last, l.getLast? = some last → d.score ≤ last.score) :
    ScoresNonInc (l ++ [d]) := by
  rw [ScoresNonInc, List.chain'_append]
  refine ⟨h, List.chain'_singleton d, ?_⟩
  intro x hx y hy
  simp at hy
  subst hy
  exact hd x hx

lemma lookup_mem : ∀ (l : List (Nat × List Hyperedge)) (a : Nat) (b : List Hyperedge),
    l.lookup a = some b → (a, b) ∈ l := by
  intro l
  induction l with
  | nil => intro a b h; simp [List.lookup] at h
  | cons p rest ih =>
    intro a b h
    obtain ⟨x, y⟩ := p
    simp only [List.lookup] at h
    by_cases hax : a = x
    · subst hax
      simp at h
      simp [h]
    · have : (a == x) = false := beq_false_of_ne hax
      rw [this] at h
      simp at h
      exact List.mem_cons_of_mem _ (ih a b h)

lemma ranked_tail_lt {g : Hypergraph} {rk : Nat → Nat} (hrk : Ranked g rk)
    {vid : Nat} {e : Hyperedge} (he : e ∈ g.edgesOf vid) {u : Nat}
    (hu : u ∈ e.tail) : rk u < rk vid := by
  unfold Hypergraph.edgesOf at he
  cases hl : g.edges.lookup vid with
  | none => rw [hl] at he; simp at he
  | some es =>
    rw [hl] at he
    simp at he
    exact hrk (vid, es) (lookup_mem _ _ _ hl) e he u hu

lemma sumScores_cons (c : Derivation) (ds : List Derivation) :
    sumScores (c :: ds) = c.score + sumScores ds := by
  simp [sumScores]

lemma childDerivs_succ_le {st : KState}
    (hsorted : ∀ u, ScoresNonInc (getV st u).kBestList) :
    ∀ (us : List Nat) (bp : List Nat) (i : Nat) (cs cs2 : List Derivation),
      childDerivs st us bp = some cs →
      childDerivs st us (bp.set i (bp.getD i 0 + 1)) = some cs2 →
      sumScores cs2 ≤ sumScores cs := by
  intro us
  induction us with
  | nil =>
    intro bp i cs cs2 h1 h2
    cases bp with
    | nil =>
      simp [childDerivs] at h1 h2
      subst h1
      subst h2
      exact le_refl _
    | cons r rs => simp [childDerivs] at h1
  | cons u us ih =>
    intro bp i cs cs2 h1 h2
    cases bp with
    | nil => simp [childDerivs] at h1
    | cons r rs =>
      cases i with
      | zero =>
        simp only [List.set_cons_zero, List.getD_cons_zero] at h2
        simp only [childDerivs] at h1 h2
        cases hc1 : ((getV st u).kBestList)[r]? with
        | none => rw [hc1] at h1; simp at h1
        | some c =>
          rw [hc1] at h1
          cases hrest : childDerivs st us rs with
          | none => rw [hrest] at h1; simp at h1
          | some ds =>
            rw [hrest] at h1
            simp at h1
            cases hc2 : ((getV st u).kBestList)[r + 1]? with
            | none => rw [hc2] at h2; simp at h2
            | some c2 =>
              rw [hc2, hrest] at h2
              simp at h2
              subst h1
              subst h2
              rw [sumScores_cons, sumScores_cons]
              have := sorted_getElem?_le (hsorted u) (Nat.le_succ r) hc1 hc2
              omega
      | succ j =>
        simp only [List.set_cons_succ, List.getD_cons_succ] at h2
        simp only [childDerivs] at h1 h2
        cases hc1 : ((getV st u).kBestList)[r]? with
        | none => rw [hc1] at h1; simp at h1
        | some c =>
          rw [hc1] at h1 h2
          cases hrest : childDerivs st us rs with
          | none => rw [hrest] at h1; simp at h1
          | some ds =>
            rw [hrest] at h1
            simp at h1
            cases hrest2 : childDerivs st us (rs.set j (rs.getD j 0 + 1)) with
            | none => rw [hrest2] at h2; simp at h2
            | some ds2 =>
              rw [hrest2] at h2
              simp at h2
              subst h1
              subst h2
              rw [sumScores_cons, sumScores_cons]
              have := ih rs j ds ds2 hrest hrest2
              omega

lemma derivIdNe_symm : ∀ {x y : Derivation},
    derivId x ≠ derivId y → derivId y ≠ derivId x := by
  intro x y h hc
  exact h hc.symm

/-- A vertex whose state is unchanged keeps its invariant when the global
state only grows. -/
lemma VertexInv_stable {g : Hypergraph} {st st2 : KState} {w : Nat}
    (heq : getV st2 w = getV st w) (hext : Extends st st2)
    (h : VertexInv g st w) : VertexInv g st2 w := by
  refine ⟨?_, ?_, ?_, ?_, ?_, ?_, ?_, ?_, ?_, ?_⟩ <;> rw [heq]
  · exact h.sorted
  · exact h.cheap
  · exact h.cand_le
  · exact fun d hd => derivWF_mono hext (h.wf_kb d hd)
  · exact fun d hd => derivWF_mono hext (h.wf_cand d hd)
  · exact h.dist
  · exact h.mem_seen
  · exact h.seen_sub
  · exact h.seen_nodup
  · exact h.unvisited

lemma pushCandidate_pres {g : Hypergraph} {st : KState} {vid : Nat} {d : Derivation}
    (hinv : Inv g st) (hwf : derivWF g st vid d)
    (hlast : ∀ last, (getV st vid).kBestList.getLast? = some last →
      d.score ≤ last.score) :
    Inv g (pushCandidate st vid d) ∧ Extends st (pushCandidate st vid d) ∧
    (∀ w, w ≠ vid → getV (pushCandidate st vid d) w = getV st w) ∧
    (getV (pushCandidate st vid d) vid).kBestList = (getV st vid).kBestList ∧
    (getV (pushCandidate st vid d) vid).visited = (getV st vid).visited ∧
    derivId d ∈ (getV (pushCandidate st vid d) vid).seen := by
  unfold pushCandidate
  by_cases hseen : derivId d ∈ (getV st vid).seen
  · rw [if_pos hseen]
    exact ⟨hinv, Extends.refl st, fun w _ => rfl, rfl, rfl, hseen⟩
  · simp only [hseen, if_false]
    refine ?_
    have hget2 : ∀ w, getV (setV st vid
        { getV st vid with candidates := heapPush (getV st vid).candidates d,
                           seen := (getV st vid).seen ++ [derivId d] }) w
        = if w = vid then
            { getV st vid with candidates := heapPush (getV st vid).candidates d,
                               seen := (getV st vid).seen ++ [derivId d] }
          else getV st w :=
      fun w => getV_setV st vid w _
    have hgv := hget2 vid
    rw [if_pos rfl] at hgv
    have hext : Extends st (setV st vid
        { getV st vid with candidates := heapPush (getV st vid).candidates d,
                           seen := (getV st vid).seen ++ [derivId d] }) := by
      intro w
      rw [hget2 w]
      by_cases hw : w = vid
      · rw [if_pos hw, hw]
      · rw [if_neg hw]
    have hmemPush : ∀ x, x ∈ heapPush (getV st vid).candidates d ↔
        (x = d ∨ x ∈ (getV st vid).candidates) := by
      intro x
      rw [(heapPush_perm (getV st vid).candidates d).mem_iff]
      simp
    have hInvVid : VertexInv g (setV st vid
        { getV st vid with candidates := heapPush (getV st vid).candidates d,
                           seen := (getV st vid).seen ++ [derivId d] }) vid := by
      have hold := hinv vid
      refine ⟨?_, ?_, ?_, ?_, ?_, ?_, ?_, ?_, ?_, ?_⟩ <;> rw [hgv] <;> dsimp only
      · exact hold.sorted
      · exact heapPush_heapD hold.cheap d
      · intro x hx last hlast2
        rcases (hmemPush x).mp hx with hxd | hxc
        · subst hxd
          exact hlast last hlast2
        · exact hold.cand_le x hxc last hlast2
      · intro x hx
        exact derivWF_mono hext (hold.wf_kb x hx)
      · intro x hx
        rcases (hmemPush x).mp hx with hxd | hxc
        · subst hxd
          exact derivWF_mono hext hwf
        · exact derivWF_mono hext (hold.wf_cand x hxc)
      · have hperm : List.Perm
            ((getV st vid).kBestList ++ heapPush (getV st vid).candidates d)
            ((getV st vid).kBestList ++ (d :: (getV st vid).candidates)) :=
          List.Perm.append_left _ (heapPush_perm (getV st vid).candidates d)
        refine (List.Perm.pairwise_iff (fun h => derivIdNe_symm h) hperm).mpr ?_
        have holddist := hold.dist
        have hdnotin : ∀ x ∈ (getV st vid).kBestList ++ (getV st vid).candidates,
            derivId x ≠ derivId d := by
          intro x hx hc
          have := hold.mem_seen x hx
          rw [hc] at this
          exact hseen this
        rw [List.pairwise_append] at holddist ⊢
        obtain ⟨hkb, hcand, hcross⟩ := holddist
        refine ⟨hkb, ?_, ?_⟩
        · rw [List.pairwise_cons]
          refine ⟨?_, hcand⟩
          intro y hy hc
          exact hdnotin y (List.mem_append_right _ hy) hc.symm
        · intro x hx y hy
          rcases List.mem_cons.mp hy with hyd | hyc
          · subst hyd
            exact hdnotin x (List.mem_append_left _ hx)
          · exact hcross x hx y hyc
      · intro x hx
        rcases List.mem_append.mp hx with hxk | hxc
        · exact List.mem_append_left _ (hold.mem_seen x (List.mem_append_left _ hxk))
        · rcases (hmemPush x).mp hxc with hxd | hxc2
          · subst hxd
            simp
          · exact List.mem_append_left _ (hold.mem_seen x (List.mem_append_right _ hxc2))
      · intro idd hidd
        rcases List.mem_append.mp hidd with hold2 | hnew
        · obtain ⟨x, hx, hid⟩ := hold.seen_sub idd hold2
          rcases List.mem_append.mp hx with hxk | hxc
          · exact ⟨x, List.mem_append_left _ hxk, hid⟩
          · exact ⟨x, List.mem_append_right _ ((hmemPush x).mpr (Or.inr hxc)), hid⟩
        · simp at hnew
          exact ⟨d, List.mem_append_right _ ((hmemPush d).mpr (Or.inl rfl)), by rw [hnew]⟩
      · rw [List.nodup_append]
        refine ⟨hold.seen_nodup, List.nodup_singleton _, ?_⟩
        intro a ha hb
        simp at hb
        subst hb
        exact hseen ha
      · intro hvis
        exact (hold.unvisited hvis)
    refine ⟨?_, hext, ?_, ?_, ?_, ?_⟩
    · intro w
      by_cases hw : w = vid
      · rw [hw]
        exact hInvVid
      · refine VertexInv_stable ?_ hext (hinv w)
        rw [hget2 w, if_neg hw]
    · intro w hw
      rw [hget2 w, if_neg hw]
    · rw [hgv]
    · rw [hgv]
    · rw [hgv]
      simp

lemma mkBase_wf {g : Hypergraph} {st : KState} {vid : Nat} {e : Hyperedge}
    {d : Derivation} (he : e ∈ g.edgesOf vid) (h : mkBase st e = some d) :
    derivWF g st vid d := by
  unfold mkBase at h
  cases hc : childDerivs st e.tail (List.replicate e.tail.length 0) with
  | none => rw [hc] at h; exact Option.noConfusion h
  | some cs =>
    rw [hc] at h
    simp at h
    subst h
    exact ⟨he, by simp, cs, hc, rfl⟩

lemma mkSuccessor_wf {g : Hypergraph} {st : KState} {vid : Nat} {d d2 : Derivation}
    (hwf : derivWF g st vid d) (h : mkSuccessor st d i = some d2) :
    derivWF g st vid d2 := by
  unfold mkSuccessor at h
  simp only [] at h
  cases hc : childDerivs st d.edge.tail
      (d.backPointers.set i (d.backPointers.getD i 0 + 1)) with
  | none => rw [hc] at h; exact Option.noConfusion h
  | some cs =>
    rw [hc] at h
    simp at h
    subst h
    rw [List.getD_eq_getElem?_getD] at hc
    exact ⟨hwf.1, by simp [hwf.2.1], cs, hc, rfl⟩

lemma mkSuccessor_le {g : Hypergraph} {st : KState} {vid : Nat} {d d2 : Derivation}
    {i : Nat} (hinv : Inv g st) (hwf : derivWF g st vid d)
    (h : mkSuccessor st d i = some d2) : d2.score ≤ d.score := by
  obtain ⟨he, hl, cs, hcs, hsc⟩ := hwf
  unfold mkSuccessor at h
  simp only [] at h
  cases hc : childDerivs st d.edge.tail
      (d.backPointers.set i (d.backPointers.getD i 0 + 1)) with
  | none => rw [hc] at h; exact Option.noConfusion h
  | some cs2 =>
    rw [hc] at h
    simp at h
    subst h
    have := childDerivs_succ_le (fun u => (hinv u).sorted) d.edge.tail
      d.backPointers i cs cs2 hcs hc
    dsimp only
    omega

lemma seedTails_pres {g : Hypergraph} {rk : Nat → Nat}
    {kb : Nat → Nat → KState → KState} (hp : KBPres g kb) (hf : KBFrame g rk kb) :
    ∀ (us : List Nat) (st : KState), Inv g st →
      Inv g (seedTailsP kb us st) ∧ Extends st (seedTailsP kb us st) ∧
      (∀ w, (∀ u ∈ us, rk u < rk w) → getV (seedTailsP kb us st) w = getV st w) := by
  intro us
  induction us with
  | nil =>
    intro st hinv
    exact ⟨hinv, Extends.refl st, fun w _ => rfl⟩
  | cons u us ih =>
    intro st hinv
    simp only [seedTailsP]
    obtain ⟨h1, h2⟩ := hp u 0 st hinv
    obtain ⟨h3, h4, h5⟩ := ih (kb u 0 st) h1
    refine ⟨h3, Extends.trans h2 h4, ?_⟩
    intro w hw
    rw [h5 w (fun x hx => hw x (List.mem_cons_of_mem _ hx)),
      hf u 0 st w hinv (hw u (List.mem_cons_self _ _))]

lemma setVisited_pres {g : Hypergraph} {st : KState} (vid : Nat) (hinv : Inv g st) :
    Inv g (setV st vid { getV st vid with visited := true }) ∧
    Extends st (setV st vid { getV st vid with visited := true }) ∧
    (∀ w, w ≠ vid →
      getV (setV st vid { getV st vid with visited := true }) w = getV st w) ∧
    (getV (setV st vid { getV st vid with visited := true }) vid).kBestList
      = (getV st vid).kBestList ∧
    (getV (setV st vid { getV st vid with visited := true }) vid).candidates
      = (getV st vid).candidates ∧
    (getV (setV st vid { getV st vid with visited := true }) vid).seen
      = (getV st vid).seen ∧
    (getV (setV st vid { getV st vid with visited := true }) vid).visited = true := by
  have hget2 : ∀ w, getV (setV st vid { getV st vid with visited := true }) w
      = if w = vid then { getV st vid with visited := true } else getV st w :=
    fun w => getV_setV st vid w _
  have hgv := hget2 vid
  rw [if_pos rfl] at hgv
  have hext : Extends st (setV st vid { getV st vid with visited := true }) := by
    intro w
    rw [hget2 w]
    by_cases hw : w = vid
    · rw [if_pos hw, hw]
    · rw [if_neg hw]
  refine ⟨?_, hext, ?_, ?_, ?_, ?_, ?_⟩
  · intro w
    by_cases hw : w = vid
    · rw [hw]
      have hold := hinv vid
      refine ⟨?_, ?_, ?_, ?_, ?_, ?_, ?_, ?_, ?_, ?_⟩ <;> rw [hgv] <;> dsimp only
      · exact hold.sorted
      · exact hold.cheap
      · exact hold.cand_le
      · exact fun d hd => derivWF_mono hext (hold.wf_kb d hd)
      · exact fun d hd => derivWF_mono hext (hold.wf_cand d hd)
      · exact hold.dist
      · exact hold.mem_seen
      · exact hold.seen_sub
      · exact hold.seen_nodup
      · intro hvis
        exact Bool.noConfusion hvis
    · refine VertexInv_stable ?_ hext (hinv w)
      rw [hget2 w, if_neg hw]
  · intro w hw
    rw [hget2 w, if_neg hw]
  · rw [hgv]
  · rw [hgv]
  · rw [hgv]
  · rw [hgv]

lemma getLast?_concat_eq (l : List Derivation) (d : Derivation) :
    (l ++ [d]).getLast? = some d := by
  simp

lemma mem_of_getLast?_eq {l : List Derivation} {d : Derivation}
    (h : l.getLast? = some d) : d ∈ l := by
  cases l with
  | nil => simp at h
  | cons x xs =>
    have := List.getLast?_eq_getLast (x :: xs) (by simp)
    rw [this] at h
    simp at h
    rw [← h]
    exact List.getLast_mem _

lemma seedEdges_pres {g : Hypergraph} {rk : Nat → Nat}
    {kb : Nat → Nat → KState → KState} {vid : Nat}
    (hrk : Ranked g rk) (hp : KBPres g kb) (hf : KBFrame g rk kb) :
    ∀ (es : List Hyperedge) (st : KState), Inv g st →
      (∀ e ∈ es, e ∈ g.edgesOf vid) →
      (getV st vid).kBestList = [] →
      Inv g (seedEdgesP kb vid es st) ∧ Extends st (seedEdgesP kb vid es st) ∧
      (∀ w, w ≠ vid → rk vid ≤ rk w →
        getV (seedEdgesP kb vid es st) w = getV st w) ∧
      (getV (seedEdgesP kb vid es st) vid).kBestList = [] ∧
      (getV (seedEdgesP kb vid es st) vid).visited = (getV st vid).visited := by
  intro es
  induction es with
  | nil =>
    intro st hinv he hkb
    exact ⟨hinv, Extends.refl st, fun w _ _ => rfl, hkb, rfl⟩
  | cons e es ih =>
    intro st hinv he hkb
    simp only [seedEdgesP]
    obtain ⟨h1, h2, h3⟩ := seedTails_pres hp hf e.tail st hinv
    have hein : e ∈ g.edgesOf vid := he e (List.mem_cons_self e es)
    have hvid1 : getV (seedTailsP kb e.tail st) vid = getV st vid := by
      apply h3
      intro u hu
      exact ranked_tail_lt hrk hein hu
    have hkb1 : (getV (seedTailsP kb e.tail st) vid).kBestList = [] := by
      rw [hvid1, hkb]
    cases hmb : mkBase (seedTailsP kb e.tail st) e with
    | none =>
      obtain ⟨h4, h5, h6, h7, h8⟩ := ih (seedTailsP kb e.tail st) h1
        (fun x hx => he x (List.mem_cons_of_mem _ hx)) hkb1
      refine ⟨h4, Extends.trans h2 h5, ?_, h7, by rw [h8, hvid1]⟩
      intro w hw hrw
      rw [h6 w hw hrw]
      apply h3
      intro u hu
      exact lt_of_lt_of_le (ranked_tail_lt hrk hein hu) hrw
    | some d =>
      have hwfd : derivWF g (seedTailsP kb e.tail st) vid d := mkBase_wf hein hmb
      have hlast : ∀ last,
          (getV (seedTailsP kb e.tail st) vid).kBestList.getLast? = some last →
          d.score ≤ last.score := by
        intro last hl
        rw [hkb1] at hl
        simp at hl
      obtain ⟨hp1, hp2, hp3, hp4, hp5, hp6⟩ := pushCandidate_pres h1 hwfd hlast
      have hkb2 : (getV (pushCandidate (seedTailsP kb e.tail st) vid d) vid).kBestList
          = [] := by rw [hp4, hkb1]
      obtain ⟨h4, h5, h6, h7, h8⟩ := ih (pushCandidate (seedTailsP kb e.tail st) vid d)
        hp1 (fun x hx => he x (List.mem_cons_of_mem _ hx)) hkb2
      refine ⟨h4, Extends.trans h2 (Extends.trans hp2 h5), ?_, h7, ?_⟩
      · intro w hw hrw
        rw [h6 w hw hrw, hp3 w hw]
        apply h3
        intro u hu
        exact lt_of_lt_of_le (ranked_tail_lt hrk hein hu) hrw
      · rw [h8, hp5, hvid1]

lemma popAppend_pres {g : Hypergraph} {st : KState} {vid : Nat} {d : Derivation}
    {rest : List Derivation} (hinv : Inv g st)
    (hvis : (getV st vid).visited = true)
    (hpop : heapPop (getV st vid).candidates = some (d, rest)) :
    Inv g (setV st vid { getV st vid with
      kBestList := (getV st vid).kBestList ++ [d], candidates := rest }) ∧
    Extends st (setV st vid { getV st vid with
      kBestList := (getV st vid).kBestList ++ [d], candidates := rest }) ∧
    (∀ w, w ≠ vid → getV (setV st vid { getV st vid with
      kBestList := (getV st vid).kBestList ++ [d], candidates := rest }) w
      = getV st w) ∧
    (getV (setV st vid { getV st vid with
      kBestList := (getV st vid).kBestList ++ [d], candidates := rest }) vid).kBestList
      = (getV st vid).kBestList ++ [d] ∧
    (getV (setV st vid { getV st vid with
      kBestList := (getV st vid).kBestList ++ [d], candidates := rest }) vid).visited
      = true := by
  obtain ⟨hroot, hrestheap, hperm⟩ := heapPop_spec (hinv vid).cheap hpop
  have hdin : d ∈ (getV st vid).candidates := hperm.symm.subset (List.mem_cons_self d rest)
  have hrestsub : ∀ x ∈ rest, x ∈ (getV st vid).candidates :=
    fun x hx => hperm.symm.subset (List.mem_cons_of_mem d hx)
  have hrest_le : ∀ x ∈ rest, x.score ≤ d.score := by
    intro x hx
    rw [hroot]
    exact heapD_mem_le_root (hinv vid).cheap (hrestsub x hx)
  have hget2 : ∀ w, getV (setV st vid { getV st vid with
      kBestList := (getV st vid).kBestList ++ [d], candidates := rest }) w
      = if w = vid then { getV st vid with
          kBestList := (getV st vid).kBestList ++ [d], candidates := rest }
        else getV st w :=
    fun w => getV_setV st vid w _
  have hgv := hget2 vid
  rw [if_pos rfl] at hgv
  have hext : Extends st (setV st vid { getV st vid with
      kBestList := (getV st vid).kBestList ++ [d], candidates := rest }) := by
    intro w
    rw [hget2 w]
    by_cases hw : w = vid
    · rw [if_pos hw, hw]
      exact ⟨[d], rfl⟩
    · rw [if_neg hw]
  have hpermfull : List.Perm
      (((getV st vid).kBestList ++ [d]) ++ rest)
      ((getV st vid).kBestList ++ (getV st vid).candidates) := by
    rw [List.append_assoc]
    exact List.Perm.append_left _ (by simpa using hperm.symm)
  refine ⟨?_, hext, ?_, by rw [hgv], by rw [hgv]; exact hvis⟩
  · intro w
    by_cases hw : w = vid
    · rw [hw]
      have hold := hinv vid
      refine ⟨?_, ?_, ?_, ?_, ?_, ?_, ?_, ?_, ?_, ?_⟩ <;> rw [hgv] <;> dsimp only
      · exact sorted_append_last hold.sorted (hold.cand_le d hdin)
      · exact hrestheap
      · intro x hx last hlast
        rw [getLast?_concat_eq] at hlast
        cases hlast
        exact hrest_le x hx
      · intro x hx
        rcases List.mem_append.mp hx with hxk | hxd
        · exact derivWF_mono hext (hold.wf_kb x hxk)
        · simp at hxd
          subst hxd
          exact derivWF_mono hext (hold.wf_cand x hdin)
      · intro x hx
        exact derivWF_mono hext (hold.wf_cand x (hrestsub x hx))
      · exact (List.Perm.pairwise_iff (fun h => derivIdNe_symm h) hpermfull).mpr hold.dist
      · intro x hx
        exact hold.mem_seen x (hpermfull.subset hx)
      · intro idd hidd
        obtain ⟨x, hx, hid⟩ := hold.seen_sub idd hidd
        exact ⟨x, hpermfull.symm.subset hx, hid⟩
      · exact hold.seen_nodup
      · intro hv
        rw [hvis] at hv
        exact Bool.noConfusion hv
    · refine VertexInv_stable ?_ hext (hinv w)
      rw [hget2 w, if_neg hw]
  · intro w hw
    rw [hget2 w, if_neg hw]

lemma nextLoop_pres {g : Hypergraph} {rk : Nat → Nat}
    {kb : Nat → Nat → KState → KState} {vid : Nat} {d : Derivation}
    (hrk : Ranked g rk) (hp : KBPres g kb) (hf : KBFrame g rk kb) :
    ∀ (is : List Nat) (st : KState), Inv g st →
      (getV st vid).kBestList.getLast? = some d →
      (∀ i ∈ is, i < d.edge.tail.length) →
      Inv g (nextLoopP kb vid d is st) ∧ Extends st (nextLoopP kb vid d is st) ∧
      (∀ w, w ≠ vid → rk vid ≤ rk w →
        getV (nextLoopP kb vid d is st) w = getV st w) ∧
      (getV (nextLoopP kb vid d is st) vid).kBestList = (getV st vid).kBestList ∧
      (getV (nextLoopP kb vid d is st) vid).visited = (getV st vid).visited := by
  intro is
  induction is with
  | nil =>
    intro st hinv hlast his
    exact ⟨hinv, Extends.refl st, fun w _ _ => rfl, rfl, rfl⟩
  | cons i is ih =>
    intro st hinv hlast his
    simp only [nextLoopP]
    have hdwf : derivWF g st vid d := (hinv vid).wf_kb d (mem_of_getLast?_eq hlast)
    have hilen : i < d.edge.tail.length := his i (List.mem_cons_self i is)
    have humem : d.edge.tail.getD i 0 ∈ d.edge.tail := by
      rw [List.getD_eq_getElem?_getD, List.getElem?_eq_getElem hilen]
      exact List.getElem_mem hilen
    have hult : rk (d.edge.tail.getD i 0) < rk vid := ranked_tail_lt hrk hdwf.1 humem
    obtain ⟨h1, h2⟩ := hp (d.edge.tail.getD i 0) (d.backPointers.getD i 0 + 1) st hinv
    have hvid1 : getV (kb (d.edge.tail.getD i 0) (d.backPointers.getD i 0 + 1) st) vid
        = getV st vid :=
      hf _ _ st vid hinv hult
    have hlast1 : (getV (kb (d.edge.tail.getD i 0) (d.backPointers.getD i 0 + 1) st)
        vid).kBestList.getLast? = some d := by rw [hvid1]; exact hlast
    set st1 := kb (d.edge.tail.getD i 0) (d.backPointers.getD i 0 + 1) st with hst1
    cases hms : mkSuccessor st1 d i with
    | none =>
      obtain ⟨h4, h5, h6, h7, h8⟩ := ih st1 h1 hlast1
        (fun x hx => his x (List.mem_cons_of_mem _ hx))
      refine ⟨h4, Extends.trans h2 h5, ?_, by rw [h7, hvid1], by rw [h8, hvid1]⟩
      intro w hw hrw
      rw [h6 w hw hrw, hst1, hf _ _ st w hinv (lt_of_lt_of_le hult hrw)]
    | some d2 =>
      have hdwf1 : derivWF g st1 vid d := derivWF_mono h2 hdwf
      have hd2wf : derivWF g st1 vid d2 := mkSuccessor_wf hdwf1 hms
      have hd2le : d2.score ≤ d.score := mkSuccessor_le h1 hdwf1 hms
      have hlastpush : ∀ last, (getV st1 vid).kBestList.getLast? = some last →
          d2.score ≤ last.score := by
        intro last hl
        rw [hlast1] at hl
        cases hl
        exact hd2le
      obtain ⟨hp1, hp2, hp3, hp4, hp5, hp6⟩ := pushCandidate_pres h1 hd2wf hlastpush
      have hlast2 : (getV (pushCandidate st1 vid d2) vid).kBestList.getLast?
          = some d := by rw [hp4]; exact hlast1
      obtain ⟨h4, h5, h6, h7, h8⟩ := ih (pushCandidate st1 vid d2) hp1 hlast2
        (fun x hx => his x (List.mem_cons_of_mem _ hx))
      refine ⟨h4, Extends.trans h2 (Extends.trans hp2 h5), ?_, ?_, ?_⟩
      · intro w hw hrw
        rw [h6 w hw hrw, hp3 w hw, hst1, hf _ _ st w hinv (lt_of_lt_of_le hult hrw)]
      · rw [h7, hp4, hvid1]
      · rw [h8, hp5, hvid1]

lemma kbLoop_pres {g : Hypergraph} {rk : Nat → Nat}
    {kb : Nat → Nat → KState → KState} {vid k : Nat}
    (hrk : Ranked g rk) (hp : KBPres g kb) (hf : KBFrame g rk kb) :
    ∀ (n : Nat) (st : KState), Inv g st → (getV st vid).visited = true →
      Inv g (kbLoopP (fun d st2 =>
        nextLoopP kb vid d (List.range d.backPointers.length) st2) vid k n st) ∧
      Extends st (kbLoopP (fun d st2 =>
        nextLoopP kb vid d (List.range d.backPointers.length) st2) vid k n st) ∧
      (∀ w, w ≠ vid → rk vid ≤ rk w → getV (kbLoopP (fun d st2 =>
        nextLoopP kb vid d (List.range d.backPointers.length) st2) vid k n st) w
        = getV st w) ∧
      (getV (kbLoopP (fun d st2 =>
        nextLoopP kb vid d (List.range d.backPointers.length) st2) vid k n st)
        vid).visited = true := by
  intro n
  induction n with
  | zero =>
    intro st hinv hvis
    exact ⟨hinv, Extends.refl st, fun w _ _ => rfl, hvis⟩
  | succ n ih =>
    intro st hinv hvis
    simp only [kbLoopP]
    by_cases hlen : (getV st vid).kBestList.length ≤ k
    · rw [if_pos hlen]
      cases hpop : heapPop (getV st vid).candidates with
      | none =>
        exact ⟨hinv, Extends.refl st, fun w _ _ => rfl, hvis⟩
      | some pr =>
        obtain ⟨d, rest⟩ := pr
        obtain ⟨i1, i2, i3, i4, i5⟩ := popAppend_pres hinv hvis hpop
        have hdin : d ∈ (getV st vid).candidates :=
          (heapPop_spec (hinv vid).cheap hpop).2.2.symm.subset (List.mem_cons_self d rest)
        have hdwf : derivWF g st vid d := (hinv vid).wf_cand d hdin
        have hlast1 : (getV (setV st vid { getV st vid with
            kBestList := (getV st vid).kBestList ++ [d], candidates := rest })
            vid).kBestList.getLast? = some d := by
          rw [i4]
          exact getLast?_concat_eq _ _
        have hrange : ∀ i ∈ List.range d.backPointers.length,
            i < d.edge.tail.length := by
          intro i hi
          rw [List.mem_range] at hi
          have := hdwf.2.1
          omega
        obtain ⟨n1, n2, n3, n4, n5⟩ := nextLoop_pres hrk hp hf
          (List.range d.backPointers.length)
          (setV st vid { getV st vid with
            kBestList := (getV st vid).kBestList ++ [d], candidates := rest })
          i1 hlast1 hrange
        have hvis2 : (getV (nextLoopP kb vid d (List.range d.backPointers.length)
            (setV st vid { getV st vid with
              kBestList := (getV st vid).kBestList ++ [d], candidates := rest }))
            vid).visited = true := by
          rw [n5, i5]
        obtain ⟨l1, l2, l3, l4⟩ := ih _ n1 hvis2
        refine ⟨l1, Extends.trans i2 (Extends.trans n2 l2), ?_, l4⟩
        intro w hw hrw
        rw [l3 w hw hrw, n3 w hw hrw, i3 w hw]
    · rw [if_neg hlen]
      exact ⟨hinv, Extends.refl st, fun w _ _ => rfl, hvis⟩

lemma LazyKthBest_pres {g : Hypergraph} {rk : Nat → Nat} (hrk : Ranked g rk) :
    ∀ (fuel vid k : Nat) (st : KState), Inv g st →
      Inv g (LazyKthBest g fuel vid k st) ∧
      Extends st (LazyKthBest g fuel vid k st) ∧
      (∀ w, rk vid < rk w → getV (LazyKthBest g fuel vid k st) w = getV st w) := by
  intro fuel
  induction fuel with
  | zero =>
    intro vid k st hinv
    exact ⟨hinv, Extends.refl st, fun w _ => rfl⟩
  | succ fuel ihf =>
    intro vid k st hinv
    have hp : KBPres g (fun u k2 st2 => LazyKthBest g fuel u k2 st2) := by
      intro u k2 st2 hinv2
      exact ⟨(ihf u k2 st2 hinv2).1, (ihf u k2 st2 hinv2).2.1⟩
    have hf : KBFrame g rk (fun u k2 st2 => LazyKthBest g fuel u k2 st2) := by
      intro u k2 st2 w hinv2 hw
      exact (ihf u k2 st2 hinv2).2.2 w hw
    show Inv g (LazyKthBest g (fuel + 1) vid k st) ∧ _
    rw [LazyKthBest]
    simp only []
    by_cases hvisited : (getV st vid).visited = true
    · rw [if_pos hvisited]
      obtain ⟨l1, l2, l3, l4⟩ := kbLoop_pres hrk hp hf (k + 1) st hinv hvisited
      refine ⟨l1, l2, ?_⟩
      intro w hw
      refine l3 w ?_ (le_of_lt hw)
      intro hc
      rw [hc] at hw
      exact lt_irrefl _ hw
    · rw [if_neg hvisited]
      have hvfalse : (getV st vid).visited = false := by
        cases hb : (getV st vid).visited
        · rfl
        · exact absurd hb hvisited
      obtain ⟨s1, s2, s3, s4, s5⟩ := seedEdges_pres hrk hp hf (g.edgesOf vid) st hinv
        (fun e he => he) ((hinv vid).unvisited hvfalse)
      obtain ⟨v1, v2, v3, v4, v5, v6, v7⟩ := setVisited_pres vid s1
      obtain ⟨l1, l2, l3, l4⟩ := kbLoop_pres hrk hp hf (k + 1) _ v1 v7
      refine ⟨l1, Extends.trans s2 (Extends.trans v2 l2), ?_⟩
      intro w hw
      have hwne : w ≠ vid := by
        intro hc
        rw [hc] at hw
        exact lt_irrefl _ hw
      rw [l3 w hwne (le_of_lt hw), v3 w hwne, s3 w hwne (le_of_lt hw)]

lemma Inv_init (g : Hypergraph) : Inv g initState := by
  intro vid
  have h : getV initState vid = VertexState.init := rfl
  refine ⟨?_, ?_, ?_, ?_, ?_, ?_, ?_, ?_, ?_, ?_⟩ <;> rw [h]
  · exact List.chain'_nil
  · intro i hi hlen
    simp [VertexState.init] at hlen
  · intro d hd
    simp [VertexState.init] at hd
  · intro d hd
    simp [VertexState.init] at hd
  · intro d hd
    simp [VertexState.init] at hd
  · simp [VertexState.init]
  · intro d hd
    simp [VertexState.init] at hd
  · intro idd hidd
    simp [VertexState.init] at hidd
  · simp [VertexState.init]
  · intro _
    rfl

instance : ∀ (g : Hypergraph) (rk : Nat → Nat), Decidable (Ranked g rk) :=
  fun g rk =>
    decidable_of_iff (∀ p ∈ g.edges, ∀ e ∈ p.2, ∀ u ∈ e.tail, rk u < rk p.1) Iff.rfl

/-- C2: across any `LazyKthBest` call on an acyclic (ranked) hypergraph, the
invariant is preserved: every vertex's `kBestList` only grows by appending at
the end, and its scores are non-increasing in rank order at every
intermediate point (each intermediate state is itself the result of such a
call, so preservation of the invariant covers every point during
extraction). -/
theorem C2_kBestList_sorted_append_only :
    ∀ (g : Hypergraph) (rk : Nat → Nat) (fuel vid k : Nat) (st : KState),
      Ranked g rk → Inv g st →
      Inv g (LazyKthBest g fuel vid k st) ∧
      (∀ w, (getV st w).kBestList <+:
        (getV (LazyKthBest g fuel vid k st) w).kBestList) ∧
      (∀ w, ScoresNonInc (getV (LazyKthBest g fuel vid k st) w).kBestList) := by
  intro g rk fuel vid k st hrk hinv
  obtain ⟨h1, h2, _⟩ := LazyKthBest_pres hrk fuel vid k st hinv
  exact ⟨h1, h2, fun w => (h1 w).sorted⟩

theorem C2_witness :
    (Ranked gEx (fun n => n) ∧ Inv gEx initState) ∧
    (Inv gEx (LazyKthBest gEx 3 0 1 initState) ∧
      (∀ w, (getV initState w).kBestList <+:
        (getV (LazyKthBest gEx 3 0 1 initState) w).kBestList) ∧
      (∀ w, ScoresNonInc (getV (LazyKthBest gEx 3 0 1 initState) w).kBestList)) :=
  ⟨⟨by decide, Inv_init gEx⟩,
    C2_kBestList_sorted_append_only gEx (fun n => n) 3 0 1 initState
      (by decide) (Inv_init gEx)⟩

/-- C3: after any `LazyKthBest` call on a ranked hypergraph from an invariant
state, no two entries of a vertex's `kBestList` share a structural identity
and the `seen` list has no duplicates; moreover a candidate whose identity is
already in `seen` is never enqueued again (the push is a no-op). -/
theorem C3_no_duplicate_identities :
    (∀ (g : Hypergraph) (rk : Nat → Nat) (fuel vid k : Nat) (st : KState)
        (w : Nat), Ranked g rk → Inv g st →
      (getV (LazyKthBest g fuel vid k st) w).kBestList.Pairwise
        (fun x y => derivId x ≠ derivId y) ∧
      (getV (LazyKthBest g fuel vid k st) w).seen.Nodup) ∧
    (∀ (st : KState) (vid : Nat) (d : Derivation),
      derivId d ∈ (getV st vid).seen → pushCandidate st vid d = st) := by
  constructor
  · intro g rk fuel vid k st w hrk hinv
    obtain ⟨h1, _, _⟩ := LazyKthBest_pres hrk fuel vid k st hinv
    have hdist := (h1 w).dist
    rw [List.pairwise_append] at hdist
    exact ⟨hdist.1, (h1 w).seen_nodup⟩
  · intro st vid d h
    unfold pushCandidate
    rw [if_pos h]

theorem C3_witness :
    (Ranked gEx (fun n => n) ∧ Inv gEx initState ∧
      derivId (sampleD 1 0) ∈ (getV stSeen 0).seen) ∧
    ((getV (LazyKthBest gEx 3 0 1 initState) 0).kBestList.Pairwise
        (fun x y => derivId x ≠ derivId y) ∧
      (getV (LazyKthBest gEx 3 0 1 initState) 0).seen.Nodup) ∧
    pushCandidate stSeen 0 (sampleD 1 0) = stSeen :=
  ⟨⟨by decide, Inv_init gEx, by decide⟩,
    (C3_no_duplicate_identities.1 gEx (fun n => n) 3 0 1 initState 0
      (by decide) (Inv_init gEx)),
    C3_no_duplicate_identities.2 stSeen 0 (sampleD 1 0) (by decide)⟩

/-- C4: both construction paths produce a derivation whose `score` is the
hyperarc's own local contribution plus the sum of the scores of the child
derivations selected by its back-pointer ranks, and whose `scoreBreakdown`
is composed additively in the same way. -/
theorem C4_score_is_local_plus_children :
    (∀ (st : KState) (e : Hyperedge) (d : Derivation), mkBase st e = some d →
      ∃ cs, childDerivs st e.tail (List.replicate e.tail.length 0) = some cs ∧
        d.score = e.score + sumScores cs ∧
        d.scoreBreakdown = vecAdd e.breakdown (sumBreakdowns cs)) ∧
    (∀ (st : KState) (d0 : Derivation) (i : Nat) (d : Derivation),
      mkSuccessor st d0 i = some d →
      ∃ cs, childDerivs st d0.edge.tail
          (d0.backPointers.set i (d0.backPointers.getD i 0 + 1)) = some cs ∧
        d.score = d0.edge.score + sumScores cs ∧
        d.scoreBreakdown = vecAdd d0.edge.breakdown (sumBreakdowns cs)) := by
  constructor
  · intro st e d h
    unfold mkBase at h
    cases hc : childDerivs st e.tail (List.replicate e.tail.length 0) with
    | none => rw [hc] at h; exact Option.noConfusion h
    | some cs =>
      rw [hc] at h
      simp at h
      subst h
      exact ⟨cs, rfl, rfl, rfl⟩
  · intro st d0 i d h
    unfold mkSuccessor at h
    simp only [] at h
    cases hc : childDerivs st d0.edge.tail
        (d0.backPointers.set i (d0.backPointers.getD i 0 + 1)) with
    | none => rw [hc] at h; exact Option.noConfusion h
    | some cs =>
      rw [hc] at h
      simp at h
      subst h
      exact ⟨cs, rfl, rfl, rfl⟩

theorem C4_witness :
    (mkBase stEx ⟨100, [1], 10, [10]⟩
      = some ⟨⟨100, [1], 10, [10]⟩, [0], 12, [10]⟩) ∧
    (∃ cs, childDerivs stEx [1] (List.replicate 1 0) = some cs ∧
      (12 : Int) = 10 + sumScores cs ∧
      ([10] : List Int) = vecAdd [10] (sumBreakdowns cs)) ∧
    (mkSuccessor stEx ⟨⟨100, [1], 10, [10]⟩, [0], 12, [10]⟩ 0
      = some ⟨⟨100, [1], 10, [10]⟩, [1], 11, [10]⟩) ∧
    (∃ cs, childDerivs stEx [1] ([0].set 0 ([0].getD 0 0 + 1)) = some cs ∧
      (11 : Int) = 10 + sumScores cs ∧
      ([10] : List Int) = vecAdd [10] (sumBreakdowns cs)) := by
  refine ⟨by decide, ?_, by decide, ?_⟩
  · have := C4_score_is_local_plus_children.1 stEx ⟨100, [1], 10, [10]⟩
      ⟨⟨100, [1], 10, [10]⟩, [0], 12, [10]⟩ (by decide)
    simpa using this
  · have := C4_score_is_local_plus_children.2 stEx
      ⟨⟨100, [1], 10, [10]⟩, [0], 12, [10]⟩ 0
      ⟨⟨100, [1], 10, [10]⟩, [1], 11, [10]⟩ (by decide)
    simpa using this

/-- C5: the successor construction `Derivation(d, i)` yields a derivation
identical to `d` except that back-pointer `i` is incremented by one: the edge
is unchanged, the back-pointer list keeps its length, and every other
position is unchanged. -/
theorem C5_successor_frame :
    ∀ (st : KState) (d : Derivation) (i : Nat) (d2 : Derivation),
      i < d.backPointers.length → mkSuccessor st d i = some d2 →
      d2.edge = d.edge ∧
      d2.backPointers.length = d.backPointers.length ∧
      d2.backPointers.getD i 0 = d.backPointers.getD i 0 + 1 ∧
      (∀ j, j ≠ i → d2.backPointers.getD j 0 = d.backPointers.getD j 0) := by
  intro st d i d2 hi h
  unfold mkSuccessor at h
  simp only [] at h
  cases hc : childDerivs st d.edge.tail
      (d.backPointers.set i (d.backPointers.getD i 0 + 1)) with
  | none => rw [hc] at h; exact Option.noConfusion h
  | some cs =>
    rw [hc] at h
    simp at h
    subst h
    refine ⟨rfl, by simp, ?_, ?_⟩
    · dsimp only
      rw [List.getD_eq_getElem?_getD, List.getElem?_set_eq_of_lt _ hi]
      simp [List.getD_eq_getElem?_getD]
    · intro j hj
      dsimp only
      rw [List.getD_eq_getElem?_getD, List.getElem?_set_ne (fun hc2 => hj hc2.symm),
        ← List.getD_eq_getElem?_getD]

theorem C5_witness :
    (0 < ([0] : List Nat).length ∧
      mkSuccessor stEx ⟨⟨100, [1], 10, [10]⟩, [0], 12, [10]⟩ 0
        = some ⟨⟨100, [1], 10, [10]⟩, [1], 11, [10]⟩) ∧
    ((⟨⟨100, [1], 10, [10]⟩, [1], 11, [10]⟩ : Derivation).edge
        = (⟨⟨100, [1], 10, [10]⟩, [0], 12, [10]⟩ : Derivation).edge ∧
      (⟨⟨100, [1], 10, [10]⟩, [1], 11, [10]⟩ : Derivation).backPointers.length
        = (⟨⟨100, [1], 10, [10]⟩, [0], 12, [10]⟩ : Derivation).backPointers.length ∧
      (⟨⟨100, [1], 10, [10]⟩, [1], 11, [10]⟩ : Derivation).backPointers.getD 0 0
        = (⟨⟨100, [1], 10, [10]⟩, [0], 12, [10]⟩ :
            Derivation).backPointers.getD 0 0 + 1 ∧
      (∀ j, j ≠ 0 →
        (⟨⟨100, [1], 10, [10]⟩, [1], 11, [10]⟩ : Derivation).backPointers.getD j 0
        = (⟨⟨100, [1], 10, [10]⟩, [0], 12, [10]⟩ :
            Derivation).backPointers.getD j 0)) :=
  ⟨⟨by decide, by decide⟩,
    C5_successor_frame stEx ⟨⟨100, [1], 10, [10]⟩, [0], 12, [10]⟩ 0
      ⟨⟨100, [1], 10, [10]⟩, [1], 11, [10]⟩ (by decide) (by decide)⟩

/-- C8: extraction is deterministic — the algorithm is a pure function of the
hypergraph, the root sequence and `k`, so two runs on identical inputs return
identical ordered outputs, including the relative order of equal-scoring
derivations (the hash is only ever used for membership tests, never for
iteration, so no pointer-dependent order can leak into the output). -/
theorem C8_extract_deterministic :
    ∀ (g1 g2 : Hypergraph) (fuel : Nat) (roots1 roots2 : List Nat) (k1 k2 : Nat),
      g1 = g2 → roots1 = roots2 → k1 = k2 →
      Extract g1 fuel roots1 k1 = Extract g2 fuel roots2 k2 := by
  intro g1 g2 fuel roots1 roots2 k1 k2 h1 h2 h3
  subst h1
  subst h2
  subst h3
  rfl

theorem C8_witness :
    (gEx = gEx ∧ ([0] : List Nat) = [0] ∧ (2 : Nat) = 2) ∧
    Extract gEx 3 [0] 2 = Extract gEx 3 [0] 2 :=
  ⟨⟨rfl, rfl, rfl⟩, C8_extract_deterministic gEx gEx 3 [0] [0] 2 2 rfl rfl rfl⟩

/-! ## Proofs — counting and enumeration -/

lemma sum_map_const {α : Type} (l : List α) (c : Nat) :
    (l.map (fun _ => c)).sum = l.length * c := by
  induction l with
  | nil => simp
  | cons x xs ih => simp [ih, Nat.succ_mul]; omega

lemma natGetD_map {l : List Nat} {f : Nat → Nat} {i : Nat} (h : i < l.length) :
    (l.map f).getD i 0 = f (l.getD i 0) := by
  rw [List.getD_eq_getElem?_getD, List.getD_eq_getElem?_getD,
    List.getElem?_map, List.getElem?_eq_getElem h]
  rfl

lemma natSet_getD_self : ∀ (l : List Nat) (i : Nat), l.set i (l.getD i 0) = l := by
  intro l
  induction l with
  | nil => intro i; simp
  | cons x xs ih =>
    intro i
    cases i with
    | zero => simp
    | succ i =>
      simp only [List.getD_cons_succ, List.set_cons_succ, List.cons.injEq, true_and]
      exact ih i

lemma bpTuples_length : ∀ bs : List Nat, (bpTuples bs).length = bs.prod := by
  intro bs
  induction bs with
  | nil => rfl
  | cons b bs ih =>
    simp only [bpTuples, List.length_flatMap, List.prod_cons]
    have hfun : (List.length ∘ fun r => (bpTuples bs).map (fun t => r :: t))
        = fun _ => bs.prod := by
      funext r
      simp [ih]
    rw [hfun, sum_map_const, List.length_range]

lemma bpTuples_mem : ∀ (bs t : List Nat),
    t ∈ bpTuples bs ↔ (t.length = bs.length ∧
      ∀ i, i < bs.length → t.getD i 0 < bs.getD i 0) := by
  intro bs
  induction bs with
  | nil =>
    intro t
    simp [bpTuples, List.length_eq_zero]
  | cons b bs ih =>
    intro t
    simp only [bpTuples, List.mem_flatMap, List.mem_map, List.mem_range]
    constructor
    · rintro ⟨r, hr, t2, ht2, rfl⟩
      obtain ⟨hlen, hbound⟩ := (ih t2).mp ht2
      refine ⟨by simp [hlen], ?_⟩
      intro i hi
      cases i with
      | zero => simpa using hr
      | succ i =>
        simp only [List.getD_cons_succ]
        exact hbound i (by simpa using hi)
    · rintro ⟨hlen, hbound⟩
      cases t with
      | nil => simp at hlen
      | cons r t2 =>
        refine ⟨r, by simpa using hbound 0 (by simp), t2, ?_, rfl⟩
        refine (ih t2).mpr ⟨by simpa using hlen, ?_⟩
        intro i hi
        simpa using hbound (i + 1) (by simpa using hi)

lemma bpTuples_nodup : ∀ bs : List Nat, (bpTuples bs).Nodup := by
  intro bs
  induction bs with
  | nil => simp [bpTuples]
  | cons b bs ih =>
    simp only [bpTuples]
    rw [List.nodup_flatMap]
    constructor
    · intro r _
      exact ih.map (fun t1 t2 h => by simpa using h)
    · refine List.Pairwise.imp ?_ (List.nodup_range b)
      intro r1 r2 hne x hx1 hx2
      simp only [List.mem_map] at hx1 hx2
      obtain ⟨t1, _, heq1⟩ := hx1
      obtain ⟨t2, _, heq2⟩ := hx2
      rw [← heq1] at heq2
      have : r2 = r1 := by
        have := congrArg (fun l => l.headD 0) heq2
        simpa using this
      exact hne this.symm

lemma countD_stable {g : Hypergraph} {rk : Nat → Nat} (hrk : Ranked g rk) :
    ∀ (R vid f1 f2 : Nat), rk vid < R → rk vid < f1 → rk vid < f2 →
      countD g f1 vid = countD g f2 vid := by
  intro R
  induction R with
  | zero => intro vid f1 f2 h; omega
  | succ R ih =>
    intro vid f1 f2 hR h1 h2
    obtain ⟨a, rfl⟩ : ∃ a, f1 = a + 1 := ⟨f1 - 1, by omega⟩
    obtain ⟨b, rfl⟩ : ∃ b, f2 = b + 1 := ⟨f2 - 1, by omega⟩
    show countD g (a + 1) vid = countD g (b + 1) vid
    rw [countD, countD]
    congr 1
    apply List.map_congr_left
    intro e he
    congr 1
    apply List.map_congr_left
    intro u hu
    have hult : rk u < rk vid := ranked_tail_lt hrk he hu
    exact ih u a b (by omega) (by omega) (by omega)

lemma DvOf_eq {g : Hypergraph} {rk : Nat → Nat} (hrk : Ranked g rk) (vid : Nat) :
    DvOf g rk vid
      = ((g.edgesOf vid).map (fun e => (e.tail.map (DvOf g rk)).prod)).sum := by
  unfold DvOf
  rw [countD]
  congr 1
  apply List.map_congr_left
  intro e he
  congr 1
  apply List.map_congr_left
  intro u hu
  have hult : rk u < rk vid := ranked_tail_lt hrk he hu
  exact countD_stable hrk (rk vid + 1) u (rk vid) (rk u + 1) (by omega) (by omega)
    (by omega)

lemma allIdsF_length (g : Hypergraph) (Dv : Nat → Nat) (vid : Nat) :
    (allIdsF g Dv vid).length
      = ((g.edgesOf vid).map (fun e => (e.tail.map Dv).prod)).sum := by
  unfold allIdsF
  rw [List.length_flatMap]
  congr 1
  have hfun : (List.length ∘ fun e : Hyperedge =>
      (bpTuples (e.tail.map Dv)).map (fun bp => (⟨e.head, e.tail, bp⟩ : DerivId)))
      = fun e => (e.tail.map Dv).prod := by
    funext e
    simp [bpTuples_length]
  rw [hfun]

lemma allIdsF_mem (g : Hypergraph) (Dv : Nat → Nat) (vid : Nat) (idd : DerivId) :
    idd ∈ allIdsF g Dv vid ↔
      ∃ e ∈ g.edgesOf vid, idd.head = e.head ∧ idd.tail = e.tail ∧
        idd.bp.length = e.tail.length ∧
        (∀ i, i < e.tail.length → idd.bp.getD i 0 < Dv (e.tail.getD i 0)) := by
  unfold allIdsF
  rw [List.mem_flatMap]
  constructor
  · rintro ⟨e, he, hm⟩
    rw [List.mem_map] at hm
    obtain ⟨bp, hbp, rfl⟩ := hm
    obtain ⟨hlen, hbound⟩ := (bpTuples_mem _ bp).mp hbp
    refine ⟨e, he, rfl, rfl, by simpa using hlen, ?_⟩
    intro i hi
    have := hbound i (by simpa using hi)
    rwa [natGetD_map hi] at this
  · rintro ⟨e, he, hh, ht, hlen, hbound⟩
    refine ⟨e, he, ?_⟩
    rw [List.mem_map]
    refine ⟨idd.bp, ?_, ?_⟩
    · refine (bpTuples_mem _ idd.bp).mpr ⟨by simpa using hlen, ?_⟩
      intro i hi
      rw [natGetD_map (by simpa using hi)]
      exact hbound i (by simpa using hi)
    · cases idd
      simp at hh ht
      rw [hh, ht]

lemma allIdsF_nodup {g : Hypergraph} (Dv : Nat → Nat) (vid : Nat)
    (hD : EdgeIdsDistinct g) : (allIdsF g Dv vid).Nodup := by
  unfold allIdsF
  rw [List.nodup_flatMap]
  constructor
  · intro e _
    refine (bpTuples_nodup _).map ?_
    intro b1 b2 h
    simpa using h
  · refine List.Pairwise.imp ?_ (hD vid)
    intro e1 e2 hne x hx1 hx2
    rw [List.mem_map] at hx1 hx2
    obtain ⟨b1, _, heq1⟩ := hx1
    obtain ⟨b2, _, heq2⟩ := hx2
    rw [← heq1] at heq2
    rcases hne with hh | ht
    · exact hh (by have := congrArg DerivId.head heq2; simpa using this.symm)
    · exact ht (by have := congrArg DerivId.tail heq2; simpa using this.symm)

lemma childDerivs_some_bounds {st : KState} :
    ∀ (us rs : List Nat) (cs : List Derivation),
      childDerivs st us rs = some cs →
      rs.length = us.length ∧
      ∀ j, j < us.length →
        rs.getD j 0 < ((getV st (us.getD j 0)).kBestList).length := by
  intro us
  induction us with
  | nil =>
    intro rs cs h
    cases rs with
    | nil => exact ⟨rfl, fun j hj => by simp at hj⟩
    | cons r rs => simp [childDerivs] at h
  | cons u us ih =>
    intro rs cs h
    cases rs with
    | nil => simp [childDerivs] at h
    | cons r rs =>
      simp only [childDerivs] at h
      cases hc : ((getV st u).kBestList)[r]? with
      | none => rw [hc] at h; simp at h
      | some d =>
        rw [hc] at h
        cases hrest : childDerivs st us rs with
        | none => rw [hrest] at h; simp at h
        | some ds =>
          obtain ⟨hlen, hbound⟩ := ih rs ds hrest
          refine ⟨by simp [hlen], ?_⟩
          intro j hj
          cases j with
          | zero =>
            simp only [List.getD_cons_zero]
            have : r < ((getV st u).kBestList).length := by
              by_contra hcon
              rw [List.getElem?_eq_none (by omega)] at hc
              exact Option.noConfusion hc
            simpa using this
          | succ j =>
            simp only [List.getD_cons_succ]
            exact hbound j (by simpa using hj)

lemma childDerivs_of_bounds {st : KState} :
    ∀ (us rs : List Nat), rs.length = us.length →
      (∀ j, j < us.length →
        rs.getD j 0 < ((getV st (us.getD j 0)).kBestList).length) →
      ∃ cs, childDerivs st us rs = some cs := by
  intro us
  induction us with
  | nil =>
    intro rs hlen _
    cases rs with
    | nil => exact ⟨[], rfl⟩
    | cons r rs => simp at hlen
  | cons u us ih =>
    intro rs hlen hbound
    cases rs with
    | nil => simp at hlen
    | cons r rs =>
      have hr : r < ((getV st u).kBestList).length := by simpa using hbound 0 (by simp)
      obtain ⟨cs, hcs⟩ := ih rs (by simpa using hlen)
        (fun j hj => by simpa using hbound (j + 1) (by simpa using hj))
      refine ⟨((getV st u).kBestList)[r] :: cs, ?_⟩
      simp only [childDerivs]
      rw [List.getElem?_eq_getElem hr, hcs]

lemma natGetD_set_self {l : List Nat} {i a : Nat} (h : i < l.length) :
    (l.set i a).getD i 0 = a := by
  rw [List.getD_eq_getElem?_getD, List.getElem?_set_self h]
  rfl

lemma natGetD_set_ne {l : List Nat} {i j a : Nat} (h : i ≠ j) :
    (l.set i a).getD j 0 = l.getD j 0 := by
  rw [List.getD_eq_getElem?_getD, List.getElem?_set_ne h,
    ← List.getD_eq_getElem?_getD]

lemma natGetD_mem {l : List Nat} {i : Nat} (h : i < l.length) : l.getD i 0 ∈ l := by
  rw [List.getD_eq_getElem?_getD, List.getElem?_eq_getElem h]
  exact List.getElem_mem h

lemma natSum_set : ∀ (l : List Nat) (i a : Nat), i < l.length →
    (l.set i a).sum + l.getD i 0 = l.sum + a := by
  intro l
  induction l with
  | nil => intro i a h; simp at h
  | cons x xs ih =>
    intro i a h
    cases i with
    | zero => simp [List.set]; omega
    | succ i =>
      simp only [List.set, List.sum_cons, List.getD_cons_succ]
      have := ih i a (by simpa using h)
      omega

lemma natSum_pos_idx : ∀ l : List Nat, l.sum ≠ 0 →
    ∃ i, i < l.length ∧ 0 < l.getD i 0 := by
  intro l
  induction l with
  | nil => intro h; simp at h
  | cons x xs ih =>
    intro h
    by_cases hx : x = 0
    · subst hx
      simp at h
      obtain ⟨i, hi, hpos⟩ := ih h
      exact ⟨i + 1, by simpa using hi, by simpa using hpos⟩
    · exact ⟨0, by simp, by simpa using Nat.pos_of_ne_zero hx⟩

lemma heapPop_eq_none {a : List Derivation} (h : heapPop a = none) : a = [] := by
  cases a with
  | nil => rfl
  | cons x xs =>
    cases xs with
    | nil => simp [heapPop] at h
    | cons y ys => simp [heapPop] at h

lemma Extends.len_le {st st2 : KState} (h : Extends st st2) (w : Nat) :
    (getV st w).kBestList.length ≤ (getV st2 w).kBestList.length :=
  (h w).length_le

/-- The closure property of a vertex depends only on that vertex's state. -/
lemma VComplete_stable {g : Hypergraph} {Dv : Nat → Nat} {st st2 : KState} {w : Nat}
    (heq : getV st2 w = getV st w) (h : VComplete g Dv st w) :
    VComplete g Dv st2 w := by
  unfold VComplete at h ⊢
  rw [heq]
  exact h

/-- The closure property survives growth of `seen` as long as `kBestList` is
unchanged and `visited` was already decided. -/
lemma VComplete_mono {g : Hypergraph} {Dv : Nat → Nat} {st st2 : KState} {w : Nat}
    (hkb : (getV st2 w).kBestList = (getV st w).kBestList)
    (hvis : (getV st2 w).visited = true → (getV st w).visited = true)
    (hseen : (getV st w).seen ⊆ (getV st2 w).seen)
    (h : VComplete g Dv st w) : VComplete g Dv st2 w := by
  intro hv2
  obtain ⟨hb, hs⟩ := h (hvis hv2)
  constructor
  · intro e he hg
    exact hseen (hb e he hg)
  · intro d hd i hi hgd
    rw [hkb] at hd
    exact hseen (hs d hd i hi hgd)

/-- Soundness of the counts: a state satisfying the invariant never holds more
derivations (ranked or frontier) at a vertex than the vertex has. -/
lemma kb_le_Dv {g : Hypergraph} {rk : Nat → Nat} (hrk : Ranked g rk)
    (hD : EdgeIdsDistinct g) {st : KState} (hinv : Inv g st) :
    ∀ vid, (getV st vid).kBestList.length + (getV st vid).candidates.length
      ≤ DvOf g rk vid := by
  suffices h : ∀ N vid, rk vid < N →
      (getV st vid).kBestList.length + (getV st vid).candidates.length
        ≤ DvOf g rk vid by
    exact fun vid => h (rk vid + 1) vid (by omega)
  intro N
  induction N with
  | zero => intro vid h; omega
  | succ N ih =>
    intro vid hN
    have hids : ∀ d ∈ (getV st vid).kBestList ++ (getV st vid).candidates,
        derivId d ∈ allIdsF g (DvOf g rk) vid := by
      intro d hd
      have hwf : derivWF g st vid d := by
        rcases List.mem_append.mp hd with h1 | h2
        · exact (hinv vid).wf_kb d h1
        · exact (hinv vid).wf_cand d h2
      obtain ⟨he, hlen, cs, hcs, _⟩ := hwf
      obtain ⟨hlen2, hbound⟩ := childDerivs_some_bounds d.edge.tail d.backPointers cs hcs
      rw [allIdsF_mem]
      refine ⟨d.edge, he, rfl, rfl, hlen, ?_⟩
      intro i hi
      have hu : d.edge.tail.getD i 0 ∈ d.edge.tail := natGetD_mem hi
      have hult : rk (d.edge.tail.getD i 0) < rk vid := ranked_tail_lt hrk he hu
      have hDvbound := ih (d.edge.tail.getD i 0) (by omega)
      have := hbound i hi
      show d.backPointers.getD i 0 < DvOf g rk (d.edge.tail.getD i 0)
      omega
    have hnodup : ((((getV st vid).kBestList ++ (getV st vid).candidates)).map
        derivId).Nodup :=
      (hinv vid).dist.map derivId (fun a b h => h)
    have hsub : (((getV st vid).kBestList ++ (getV st vid).candidates).map derivId)
        ⊆ allIdsF g (DvOf g rk) vid := by
      intro x hx
      rw [List.mem_map] at hx
      obtain ⟨d, hd, rfl⟩ := hx
      exact hids d hd
    have hlen3 := (List.Nodup.subperm hnodup hsub).length_le
    rw [List.length_map, List.length_append, allIdsF_length, ← DvOf_eq hrk] at hlen3
    exact hlen3

/-- Once a vertex is visited, its frontier is exhausted and the closure
property holds, every structural identity of one of its derivations has been
enqueued. -/
lemma closure_seen {g : Hypergraph} {rk : Nat → Nat} {st : KState} {vid : Nat}
    (hinv : Inv g st) (hvc : VComplete g (DvOf g rk) st vid)
    (hvis : (getV st vid).visited = true)
    (hcand : (getV st vid).candidates = []) :
    ∀ idd ∈ allIdsF g (DvOf g rk) vid, idd ∈ (getV st vid).seen := by
  obtain ⟨hbase, hsucc⟩ := hvc hvis
  have hzero : ∀ (e : Hyperedge) (bp : List Nat), e ∈ g.edgesOf vid →
      bp.length = e.tail.length →
      (∀ i, i < e.tail.length → bp.getD i 0 < DvOf g rk (e.tail.getD i 0)) →
      bp.sum = 0 → (⟨e.head, e.tail, bp⟩ : DerivId) ∈ (getV st vid).seen := by
    intro e bp he hlen hbound hsum
    have hrepl : bp = List.replicate bp.length 0 := by
      apply List.eq_replicate_of_mem
      intro b hb
      have := List.sum_eq_zero_iff.mp hsum b hb
      exact this
    have hguard : ∀ u ∈ e.tail, 0 < DvOf g rk u := by
      intro u hu
      obtain ⟨i, hi, hget⟩ := List.mem_iff_getElem.mp hu
      have := hbound i hi
      have hgu : e.tail.getD i 0 = u := by
        rw [List.getD_eq_getElem?_getD, List.getElem?_eq_getElem hi]
        exact hget
      rw [hgu] at this
      omega
    have := hbase e he hguard
    unfold baseIdOf at this
    rw [hrepl, hlen]
    exact this
  suffices h : ∀ (s : Nat) (e : Hyperedge) (bp : List Nat), e ∈ g.edgesOf vid →
      bp.length = e.tail.length →
      (∀ i, i < e.tail.length → bp.getD i 0 < DvOf g rk (e.tail.getD i 0)) →
      bp.sum ≤ s → (⟨e.head, e.tail, bp⟩ : DerivId) ∈ (getV st vid).seen by
    intro idd hidd
    rw [allIdsF_mem] at hidd
    obtain ⟨e, he, hh, ht, hlen, hbound⟩ := hidd
    obtain ⟨ih, it, ib⟩ := idd
    dsimp only at hh ht hlen hbound
    subst hh
    subst ht
    exact h ib.sum e ib he hlen hbound (le_refl _)
  intro s
  induction s with
  | zero =>
    intro e bp he hlen hbound hsum
    exact hzero e bp he hlen hbound (by omega)
  | succ s ih =>
    intro e bp he hlen hbound hsum
    by_cases hz : bp.sum = 0
    · exact hzero e bp he hlen hbound hz
    · obtain ⟨i, hi, hpos⟩ := natSum_pos_idx bp hz
      have hit : i < e.tail.length := by omega
      have hlen2 : (bp.set i (bp.getD i 0 - 1)).length = e.tail.length := by
        rw [List.length_set]
        exact hlen
      have hbound2 : ∀ j, j < e.tail.length →
          (bp.set i (bp.getD i 0 - 1)).getD j 0 < DvOf g rk (e.tail.getD j 0) := by
        intro j hj
        by_cases hij : i = j
        · subst hij
          rw [natGetD_set_self hi]
          have := hbound i hit
          omega
        · rw [natGetD_set_ne hij]
          exact hbound j hj
      have hsum2 : (bp.set i (bp.getD i 0 - 1)).sum ≤ s := by
        have := natSum_set bp i (bp.getD i 0 - 1) hi
        omega
      have hpred := ih e (bp.set i (bp.getD i 0 - 1)) he hlen2 hbound2 hsum2
      obtain ⟨d, hd, hdid⟩ := (hinv vid).seen_sub _ hpred
      rw [hcand, List.append_nil] at hd
      unfold derivId at hdid
      rw [DerivId.mk.injEq] at hdid
      obtain ⟨hdh, hdt, hdb⟩ := hdid
      have hilen : i < d.backPointers.length := by
        rw [hdb, List.length_set]
        omega
      have hguard : d.backPointers.getD i 0 + 1
          < DvOf g rk (d.edge.tail.getD i 0) := by
        rw [hdb, hdt, natGetD_set_self hi]
        have := hbound i hit
        omega
      have hsucc2 := hsucc d hd i hilen hguard
      unfold succIdOf at hsucc2
      rw [hdh, hdt, hdb, natGetD_set_self hi, List.set_set,
        Nat.sub_add_cancel (by omega), natSet_getD_self] at hsucc2
      exact hsucc2

/-- When a visited vertex's frontier runs empty, its ranked list holds exactly
all of the vertex's derivations. -/
lemma closure_count {g : Hypergraph} {rk : Nat → Nat} {st : KState} {vid : Nat}
    (hrk : Ranked g rk) (hD : EdgeIdsDistinct g) (hinv : Inv g st)
    (hvc : VComplete g (DvOf g rk) st vid)
    (hvis : (getV st vid).visited = true)
    (hcand : (getV st vid).candidates = []) :
    (getV st vid).kBestList.length = DvOf g rk vid := by
  have hle := kb_le_Dv hrk hD hinv vid
  rw [hcand, List.length_nil] at hle
  have hsub := closure_seen hinv hvc hvis hcand
  have h1 : (allIdsF g (DvOf g rk) vid).length ≤ (getV st vid).seen.length :=
    (List.Nodup.subperm (allIdsF_nodup _ _ hD) hsub).length_le
  have h2 : (getV st vid).seen.length ≤ (getV st vid).kBestList.length := by
    have hsub2 : (getV st vid).seen ⊆ ((getV st vid).kBestList.map derivId) := by
      intro idd hidd
      obtain ⟨d, hd, hdid⟩ := (hinv vid).seen_sub idd hidd
      rw [hcand, List.append_nil] at hd
      rw [List.mem_map]
      exact ⟨d, hd, hdid⟩
    have := (List.Nodup.subperm (hinv vid).seen_nodup hsub2).length_le
    rwa [List.length_map] at this
  rw [allIdsF_length, ← DvOf_eq hrk] at h1
  omega

lemma mkBase_id {st : KState} {e : Hyperedge} {d : Derivation}
    (h : mkBase st e = some d) : derivId d = baseIdOf e := by
  unfold mkBase at h
  cases hc : childDerivs st e.tail (List.replicate e.tail.length 0) with
  | none => rw [hc] at h; exact Option.noConfusion h
  | some cs =>
    rw [hc] at h
    simp at h
    subst h
    rfl

lemma mkSuccessor_id {st : KState} {d d2 : Derivation} {i : Nat}
    (h : mkSuccessor st d i = some d2) : derivId d2 = succIdOf d i := by
  unfold mkSuccessor at h
  simp only [] at h
  cases hc : childDerivs st d.edge.tail
      (d.backPointers.set i (d.backPointers.getD i 0 + 1)) with
  | none => rw [hc] at h; exact Option.noConfusion h
  | some cs =>
    rw [hc] at h
    simp at h
    subst h
    unfold succIdOf
    rw [List.getD_eq_getElem?_getD]
    rfl

/-- A successor exists whenever the incremented child rank is materialised. -/
lemma mkSuccessor_of_bounds {g : Hypergraph} {st : KState} {vid : Nat}
    {d : Derivation} {i : Nat} (hwf : derivWF g st vid d)
    (hi : i < d.backPointers.length)
    (hib : d.backPointers.getD i 0 + 1
      < ((getV st (d.edge.tail.getD i 0)).kBestList).length) :
    ∃ d2, mkSuccessor st d i = some d2 := by
  obtain ⟨he, hlen, cs, hcs, _⟩ := hwf
  obtain ⟨hlen2, hbound⟩ := childDerivs_some_bounds _ _ _ hcs
  have hbounds : ∀ j, j < d.edge.tail.length →
      (d.backPointers.set i (d.backPointers.getD i 0 + 1)).getD j 0
        < ((getV st (d.edge.tail.getD j 0)).kBestList).length := by
    intro j hj
    by_cases hij : i = j
    · subst hij
      rw [natGetD_set_self hi]
      exact hib
    · rw [natGetD_set_ne hij]
      exact hbound j hj
  obtain ⟨cs2, hcs2⟩ := childDerivs_of_bounds d.edge.tail
    (d.backPointers.set i (d.backPointers.getD i 0 + 1))
    (by rw [List.length_set]; exact hlen2) hbounds
  unfold mkSuccessor
  simp only []
  rw [hcs2]
  exact ⟨_, rfl⟩

lemma pushCandidate_seen_mono (st : KState) (vid w : Nat) (d : Derivation) :
    (getV st w).seen ⊆ (getV (pushCandidate st vid d) w).seen := by
  unfold pushCandidate
  by_cases hseen : derivId d ∈ (getV st vid).seen
  · rw [if_pos hseen]
    exact fun x hx => hx
  · simp only [hseen, if_false]
    rw [getV_setV]
    by_cases hw : w = vid
    · rw [if_pos hw, hw]
      dsimp only
      exact fun x hx => List.mem_append_left _ hx
    · rw [if_neg hw]
      exact fun x hx => hx

/-- A recursive call on a strictly lower-rank vertex keeps every vertex below
a rank bound closed. -/
lemma kbCall_CompleteBelow {g : Hypergraph} {rk Dv : Nat → Nat} {R : Nat}
    {kb : Nat → Nat → KState → KState} (hf : KBFrame g rk kb)
    (hc : KBComplete g rk Dv R kb) {u k : Nat} {st : KState}
    (hu : rk u < R) (hinv : Inv g st) (hcb : CompleteBelow g rk Dv R st) :
    CompleteBelow g rk Dv R (kb u k st) := by
  have hpre : CompleteBelow g rk Dv (rk u + 1) st := fun w hw => hcb w (by omega)
  obtain ⟨h1, _⟩ := hc u k st hu hinv hpre
  intro w hw
  by_cases hwu : rk w ≤ rk u
  · exact h1 w (by omega)
  · exact VComplete_stable (hf u k st w hinv (by omega)) (hcb w hw)

/-- Completeness of tail seeding: closure below the subject's rank is kept and
every seeded tail vertex ends with its best derivation materialised when it
has one. -/
lemma seedTails_complete {g : Hypergraph} {rk Dv : Nat → Nat} {R : Nat}
    {kb : Nat → Nat → KState → KState}
    (hp : KBPres g kb) (hf : KBFrame g rk kb) (hc : KBComplete g rk Dv R kb) :
    ∀ (us : List Nat) (st : KState), Inv g st →
      (∀ u ∈ us, rk u < R) → CompleteBelow g rk Dv R st →
      CompleteBelow g rk Dv R (seedTailsP kb us st) ∧
      (∀ u ∈ us, min 1 (Dv u) ≤ (getV (seedTailsP kb us st) u).kBestList.length) := by
  intro us
  induction us with
  | nil =>
    intro st hinv hus hcb
    exact ⟨hcb, fun u hu => absurd hu (List.not_mem_nil u)⟩
  | cons u us ih =>
    intro st hinv hus hcb
    simp only [seedTailsP]
    have hu : rk u < R := hus u (List.mem_cons_self u us)
    have hpre : CompleteBelow g rk Dv (rk u + 1) st := fun w hw => hcb w (by omega)
    obtain ⟨hc1, hc2⟩ := hc u 0 st hu hinv hpre
    have hcb1 : CompleteBelow g rk Dv R (kb u 0 st) :=
      kbCall_CompleteBelow hf hc hu hinv hcb
    obtain ⟨hinv1, hext1⟩ := hp u 0 st hinv
    obtain ⟨ih1, ih2⟩ := ih (kb u 0 st) hinv1
      (fun x hx => hus x (List.mem_cons_of_mem _ hx)) hcb1
    refine ⟨ih1, ?_⟩
    intro x hx
    rcases List.mem_cons.mp hx with hxu | hxs
    · subst hxu
      have hextrest := (seedTails_pres hp hf us (kb x 0 st) hinv1).2.1
      have hmono := Extends.len_le hextrest x
      exact le_trans hc2 hmono
    · exact ih2 x hxs

/-- Completeness of frontier seeding: after `GetCandidates`, every incoming
hyperedge whose tail vertices all have derivations has had its base
derivation's identity enqueued at the subject vertex. -/
lemma seedEdges_complete {g : Hypergraph} {rk Dv : Nat → Nat} {vid : Nat}
    {kb : Nat → Nat → KState → KState}
    (hrk : Ranked g rk) (hp : KBPres g kb) (hf : KBFrame g rk kb)
    (hc : KBComplete g rk Dv (rk vid) kb) :
    ∀ (es : List Hyperedge) (st : KState), Inv g st →
      (∀ e ∈ es, e ∈ g.edgesOf vid) →
      (getV st vid).kBestList = [] →
      CompleteBelow g rk Dv (rk vid) st →
      CompleteBelow g rk Dv (rk vid) (seedEdgesP kb vid es st) ∧
      (getV st vid).seen ⊆ (getV (seedEdgesP kb vid es st) vid).seen ∧
      (∀ e ∈ es, (∀ u ∈ e.tail, 0 < Dv u) →
        baseIdOf e ∈ (getV (seedEdgesP kb vid es st) vid).seen) := by
  intro es
  induction es with
  | nil =>
    intro st hinv he hkb hcb
    exact ⟨hcb, fun x hx => hx, fun e he2 => absurd he2 (List.not_mem_nil e)⟩
  | cons e es ih =>
    intro st hinv he hkb hcb
    simp only [seedEdgesP]
    have hein : e ∈ g.edgesOf vid := he e (List.mem_cons_self e es)
    have hus : ∀ u ∈ e.tail, rk u < rk vid := fun u hu => ranked_tail_lt hrk hein hu
    obtain ⟨t1, t2, t3⟩ := seedTails_pres hp hf e.tail st hinv
    obtain ⟨tc1, tc2⟩ := seedTails_complete hp hf hc e.tail st hinv hus hcb
    have hvid1 : getV (seedTailsP kb e.tail st) vid = getV st vid := t3 vid hus
    have hkb1 : (getV (seedTailsP kb e.tail st) vid).kBestList = [] := by
      rw [hvid1, hkb]
    have hseen1 : (getV (seedTailsP kb e.tail st) vid).seen = (getV st vid).seen := by
      rw [hvid1]
    cases hmb : mkBase (seedTailsP kb e.tail st) e with
    | none =>
      obtain ⟨h1, h2, h3⟩ := ih (seedTailsP kb e.tail st) t1
        (fun x hx => he x (List.mem_cons_of_mem _ hx)) hkb1 tc1
      refine ⟨h1, ?_, ?_⟩
      · intro x hx
        exact h2 (hseen1 ▸ hx)
      · intro e2 he2 hg
        rcases List.mem_cons.mp he2 with he2e | hes
        · subst he2e
          exfalso
          have hbounds : ∀ j, j < e2.tail.length →
              (List.replicate e2.tail.length 0).getD j 0
                < ((getV (seedTailsP kb e2.tail st) (e2.tail.getD j 0)).kBestList).length := by
            intro j hj
            have hu : e2.tail.getD j 0 ∈ e2.tail := natGetD_mem hj
            have h01 := tc2 (e2.tail.getD j 0) hu
            have hpos := hg (e2.tail.getD j 0) hu
            have hz : (List.replicate e2.tail.length 0).getD j 0 = 0 := by
              rw [List.getD_eq_getElem?_getD, List.getElem?_replicate]
              simp [hj]
            rw [hz]
            omega
          obtain ⟨cs2, hcs2⟩ := childDerivs_of_bounds e2.tail
            (List.replicate e2.tail.length 0) (by simp) hbounds
          unfold mkBase at hmb
          rw [hcs2] at hmb
          exact Option.noConfusion hmb
        · exact h3 e2 hes hg
    | some d =>
      have hwfd : derivWF g (seedTailsP kb e.tail st) vid d := mkBase_wf hein hmb
      have hlast : ∀ last,
          (getV (seedTailsP kb e.tail st) vid).kBestList.getLast? = some last →
          d.score ≤ last.score := by
        intro last hl
        rw [hkb1] at hl
        simp at hl
      obtain ⟨hp1, hp2, hp3, hp4, hp5, hp6⟩ := pushCandidate_pres t1 hwfd hlast
      have hkb2 : (getV (pushCandidate (seedTailsP kb e.tail st) vid d) vid).kBestList
          = [] := by rw [hp4, hkb1]
      have hcb2 : CompleteBelow g rk Dv (rk vid)
          (pushCandidate (seedTailsP kb e.tail st) vid d) := by
        intro w hw
        have hwne : w ≠ vid := by
          intro hcon
          rw [hcon] at hw
          omega
        exact VComplete_stable (hp3 w hwne) (tc1 w hw)
      obtain ⟨h1, h2, h3⟩ := ih (pushCandidate (seedTailsP kb e.tail st) vid d)
        hp1 (fun x hx => he x (List.mem_cons_of_mem _ hx)) hkb2 hcb2
      refine ⟨h1, ?_, ?_⟩
      · intro x hx
        refine h2 (pushCandidate_seen_mono _ vid vid d (hseen1 ▸ hx))
      · intro e2 he2 hg
        rcases List.mem_cons.mp he2 with he2e | hes
        · subst he2e
          have := hp6
          rw [mkBase_id hmb] at this
          exact h2 this
        · exact h3 e2 hes hg

/-- Completeness of the successor loop of `LazyNext`: closure below the
subject is kept, the subject's enqueued identities only grow, and every
in-range successor of the just-accepted derivation gets enqueued. -/
lemma nextLoop_complete {g : Hypergraph} {rk Dv : Nat → Nat} {vid : Nat}
    {d : Derivation} {kb : Nat → Nat → KState → KState}
    (hrk : Ranked g rk) (hp : KBPres g kb) (hf : KBFrame g rk kb)
    (hc : KBComplete g rk Dv (rk vid) kb) :
    ∀ (is : List Nat) (st : KState), Inv g st →
      (getV st vid).kBestList.getLast? = some d →
      (∀ i ∈ is, i < d.edge.tail.length) →
      CompleteBelow g rk Dv (rk vid) st →
      CompleteBelow g rk Dv (rk vid) (nextLoopP kb vid d is st) ∧
      (getV st vid).seen ⊆ (getV (nextLoopP kb vid d is st) vid).seen ∧
      (∀ i ∈ is, d.backPointers.getD i 0 + 1 < Dv (d.edge.tail.getD i 0) →
        succIdOf d i ∈ (getV (nextLoopP kb vid d is st) vid).seen) := by
  intro is
  induction is with
  | nil =>
    intro st hinv hlast his hcb
    exact ⟨hcb, fun x hx => hx, fun i hi => absurd hi (List.not_mem_nil i)⟩
  | cons i is ih =>
    intro st hinv hlast his hcb
    simp only [nextLoopP]
    have hdwf : derivWF g st vid d := (hinv vid).wf_kb d (mem_of_getLast?_eq hlast)
    have hilen : i < d.edge.tail.length := his i (List.mem_cons_self i is)
    have humem : d.edge.tail.getD i 0 ∈ d.edge.tail := natGetD_mem hilen
    have hult : rk (d.edge.tail.getD i 0) < rk vid := ranked_tail_lt hrk hdwf.1 humem
    have hpre : CompleteBelow g rk Dv (rk (d.edge.tail.getD i 0) + 1) st :=
      fun w hw => hcb w (by omega)
    obtain ⟨hcc1, hcc2⟩ := hc (d.edge.tail.getD i 0) (d.backPointers.getD i 0 + 1)
      st hult hinv hpre
    obtain ⟨h1, h2⟩ := hp (d.edge.tail.getD i 0) (d.backPointers.getD i 0 + 1) st hinv
    have hcb1 : CompleteBelow g rk Dv (rk vid)
        (kb (d.edge.tail.getD i 0) (d.backPointers.getD i 0 + 1) st) :=
      kbCall_CompleteBelow hf hc hult hinv hcb
    have hvid1 : getV (kb (d.edge.tail.getD i 0) (d.backPointers.getD i 0 + 1) st) vid
        = getV st vid :=
      hf _ _ st vid hinv hult
    have hlast1 : (getV (kb (d.edge.tail.getD i 0) (d.backPointers.getD i 0 + 1) st)
        vid).kBestList.getLast? = some d := by rw [hvid1]; exact hlast
    set st1 := kb (d.edge.tail.getD i 0) (d.backPointers.getD i 0 + 1) st with hst1
    have hseen1 : (getV st1 vid).seen = (getV st vid).seen := by rw [hvid1]
    have hdwf1 : derivWF g st1 vid d := derivWF_mono h2 hdwf
    cases hms : mkSuccessor st1 d i with
    | none =>
      obtain ⟨r1, r2, r3⟩ := ih st1 h1 hlast1
        (fun x hx => his x (List.mem_cons_of_mem _ hx)) hcb1
      refine ⟨r1, fun x hx => r2 (hseen1 ▸ hx), ?_⟩
      intro j hj hguard
      rcases List.mem_cons.mp hj with hji | hjs
      · subst hji
        exfalso
        have hjbp : j < d.backPointers.length := by
          have := hdwf.2.1
          omega
        have hib : d.backPointers.getD j 0 + 1
            < ((getV st1 (d.edge.tail.getD j 0)).kBestList).length := by
          have := hcc2
          omega
        obtain ⟨d2, hd2⟩ := mkSuccessor_of_bounds hdwf1 hjbp hib
        rw [hms] at hd2
        exact Option.noConfusion hd2
      · exact r3 j hjs hguard
    | some d2 =>
      have hd2wf : derivWF g st1 vid d2 := mkSuccessor_wf hdwf1 hms
      have hd2le : d2.score ≤ d.score := mkSuccessor_le h1 hdwf1 hms
      have hlastpush : ∀ last, (getV st1 vid).kBestList.getLast? = some last →
          d2.score ≤ last.score := by
        intro last hl
        rw [hlast1] at hl
        cases hl
        exact hd2le
      obtain ⟨hp1, hp2, hp3, hp4, hp5, hp6⟩ := pushCandidate_pres h1 hd2wf hlastpush
      have hlast2 : (getV (pushCandidate st1 vid d2) vid).kBestList.getLast?
          = some d := by rw [hp4]; exact hlast1
      have hcb2 : CompleteBelow g rk Dv (rk vid) (pushCandidate st1 vid d2) := by
        intro w hw
        have hwne : w ≠ vid := by
          intro hcon
          rw [hcon] at hw
          omega
        exact VComplete_stable (hp3 w hwne) (hcb1 w hw)
      obtain ⟨r1, r2, r3⟩ := ih (pushCandidate st1 vid d2) hp1 hlast2
        (fun x hx => his x (List.mem_cons_of_mem _ hx)) hcb2
      refine ⟨r1, ?_, ?_⟩
      · intro x hx
        exact r2 (pushCandidate_seen_mono st1 vid vid d2 (hseen1 ▸ hx))
      · intro j hj hguard
        rcases List.mem_cons.mp hj with hji | hjs
        · subst hji
          have := hp6
          rw [mkSuccessor_id hms] at this
          exact r2 this
        · exact r3 j hjs hguard

/-- Completeness of the pop/append/expand loop: closure is maintained and the
subject ends with `min (k+1)` and its derivation count many ranks. -/
lemma kbLoop_complete {g : Hypergraph} {rk : Nat → Nat}
    {kb : Nat → Nat → KState → KState}
    (hrk : Ranked g rk) (hD : EdgeIdsDistinct g)
    (hp : KBPres g kb) (hf : KBFrame g rk kb) (vid k : Nat)
    (hc : KBComplete g rk (DvOf g rk) (rk vid) kb) :
    ∀ (n : Nat) (st : KState), Inv g st → (getV st vid).visited = true →
      VComplete g (DvOf g rk) st vid →
      CompleteBelow g rk (DvOf g rk) (rk vid) st →
      k + 1 ≤ n + (getV st vid).kBestList.length →
      VComplete g (DvOf g rk) (kbLoopP (fun d st2 =>
        nextLoopP kb vid d (List.range d.backPointers.length) st2) vid k n st) vid ∧
      CompleteBelow g rk (DvOf g rk) (rk vid) (kbLoopP (fun d st2 =>
        nextLoopP kb vid d (List.range d.backPointers.length) st2) vid k n st) ∧
      min (k + 1) (DvOf g rk vid) ≤ (getV (kbLoopP (fun d st2 =>
        nextLoopP kb vid d (List.range d.backPointers.length) st2) vid k n st)
        vid).kBestList.length := by
  intro n
  induction n with
  | zero =>
    intro st hinv hvis hvc hcb harith
    refine ⟨hvc, hcb, ?_⟩
    simp only [kbLoopP]
    omega
  | succ n ih =>
    intro st hinv hvis hvc hcb harith
    simp only [kbLoopP]
    by_cases hlen : (getV st vid).kBestList.length ≤ k
    · rw [if_pos hlen]
      cases hpop : heapPop (getV st vid).candidates with
      | none =>
        have hcand : (getV st vid).candidates = [] := heapPop_eq_none hpop
        have hcount := closure_count hrk hD hinv hvc hvis hcand
        refine ⟨hvc, hcb, ?_⟩
        show min (k + 1) (DvOf g rk vid) ≤ (getV st vid).kBestList.length
        omega
      | some pr =>
        obtain ⟨d, rest⟩ := pr
        obtain ⟨i1, i2, i3, i4, i5⟩ := popAppend_pres hinv hvis hpop
        set st1 := setV st vid { getV st vid with
          kBestList := (getV st vid).kBestList ++ [d], candidates := rest } with hst1
        have hseenst1 : (getV st1 vid).seen = (getV st vid).seen := by
          rw [hst1, getV_setV, if_pos rfl]
        have hdin : d ∈ (getV st vid).candidates :=
          (heapPop_spec (hinv vid).cheap hpop).2.2.symm.subset
            (List.mem_cons_self d rest)
        have hdwf : derivWF g st vid d := (hinv vid).wf_cand d hdin
        have hlast1 : (getV st1 vid).kBestList.getLast? = some d := by
          rw [i4]
          exact getLast?_concat_eq _ _
        have hrange : ∀ i ∈ List.range d.backPointers.length,
            i < d.edge.tail.length := by
          intro i hi
          rw [List.mem_range] at hi
          have := hdwf.2.1
          omega
        have hcb1 : CompleteBelow g rk (DvOf g rk) (rk vid) st1 := by
          intro w hw
          have hwne : w ≠ vid := by
            intro hcon
            rw [hcon] at hw
            omega
          exact VComplete_stable (i3 w hwne) (hcb w hw)
        obtain ⟨n1, n2, n3, n4, n5⟩ := nextLoop_pres hrk hp hf
          (List.range d.backPointers.length) st1 i1 hlast1 hrange
        obtain ⟨c1, c2, c3⟩ := nextLoop_complete hrk hp hf hc
          (List.range d.backPointers.length) st1 i1 hlast1 hrange hcb1
        set st2 := nextLoopP kb vid d (List.range d.backPointers.length) st1
          with hst2
        have hvc2 : VComplete g (DvOf g rk) st2 vid := by
          intro hv2
          obtain ⟨hb, hs⟩ := hvc hvis
          constructor
          · intro e he hg
            exact c2 (hseenst1 ▸ hb e he hg)
          · intro x hx i hi hguard
            rw [n4, i4] at hx
            rcases List.mem_append.mp hx with hxk | hxd
            · exact c2 (hseenst1 ▸ hs x hxk i hi hguard)
            · simp at hxd
              subst hxd
              exact c3 i (List.mem_range.mpr hi) hguard
        have hvis2 : (getV st2 vid).visited = true := by rw [n5, i5]
        have hlen2 : (getV st2 vid).kBestList.length
            = (getV st vid).kBestList.length + 1 := by
          rw [n4, i4]
          simp
        obtain ⟨l1, l2, l3⟩ := ih st2 n1 hvis2 hvc2 c1 (by omega)
        exact ⟨l1, l2, l3⟩
    · rw [if_neg hlen]
      exact ⟨hvc, hcb, by omega⟩

/-- Completeness of `LazyKthBest` on an acyclic hypergraph with enough fuel
for the recursion depth: closure is established up to the subject's rank and
the subject materialises `min (k+1)` and its derivation count many ranks. -/
lemma LazyKthBest_complete {g : Hypergraph} {rk : Nat → Nat}
    (hrk : Ranked g rk) (hD : EdgeIdsDistinct g) :
    ∀ (B R fuel : Nat), R ≤ B → 2 * R ≤ fuel + 1 →
      KBComplete g rk (DvOf g rk) R (LazyKthBest g fuel) := by
  intro B
  induction B with
  | zero =>
    intro R fuel hB hfuel u k st hu hinv hcb
    exact absurd hu (by omega)
  | succ B ihB =>
    intro R fuel hB hfuel u k st hu hinv hcb
    have h1 : 2 * rk u + 1 ≤ fuel := by omega
    obtain ⟨f, rfl⟩ : ∃ f, fuel = f + 1 := ⟨fuel - 1, by omega⟩
    have hcall : KBComplete g rk (DvOf g rk) (rk u) (LazyKthBest g f) :=
      ihB (rk u) f (by omega) (by omega)
    have hp : KBPres g (fun u2 k2 st2 => LazyKthBest g f u2 k2 st2) := by
      intro u2 k2 st2 hinv2
      exact ⟨(LazyKthBest_pres hrk f u2 k2 st2 hinv2).1,
        (LazyKthBest_pres hrk f u2 k2 st2 hinv2).2.1⟩
    have hf2 : KBFrame g rk (fun u2 k2 st2 => LazyKthBest g f u2 k2 st2) := by
      intro u2 k2 st2 w hinv2 hw
      exact (LazyKthBest_pres hrk f u2 k2 st2 hinv2).2.2 w hw
    have hcall2 : KBComplete g rk (DvOf g rk) (rk u)
        (fun u2 k2 st2 => LazyKthBest g f u2 k2 st2) := hcall
    show CompleteBelow g rk (DvOf g rk) (rk u + 1) (LazyKthBest g (f + 1) u k st) ∧
      min (k + 1) (DvOf g rk u)
        ≤ (getV (LazyKthBest g (f + 1) u k st) u).kBestList.length
    rw [LazyKthBest]
    simp only []
    by_cases hvis : (getV st u).visited = true
    · rw [if_pos hvis]
      have hvc : VComplete g (DvOf g rk) st u := hcb u (by omega)
      have hcbr : CompleteBelow g rk (DvOf g rk) (rk u) st :=
        fun w hw => hcb w (by omega)
      obtain ⟨l1, l2, l3⟩ := kbLoop_complete hrk hD hp hf2 u k hcall2 (k + 1) st
        hinv hvis hvc hcbr (by omega)
      obtain ⟨p1, p2, p3, p4⟩ := kbLoop_pres hrk hp hf2 (k + 1) st hinv hvis
      refine ⟨?_, l3⟩
      intro w hw
      by_cases hwu : w = u
      · rw [hwu]
        exact l1
      · by_cases hwlt : rk w < rk u
        · exact l2 w hwlt
        · exact VComplete_stable (p3 w hwu (by omega)) (hcb w hw)
    · rw [if_neg hvis]
      have hvfalse : (getV st u).visited = false := by
        cases hb : (getV st u).visited
        · rfl
        · exact absurd hb hvis
      have hkbnil : (getV st u).kBestList = [] := (hinv u).unvisited hvfalse
      have hcbr : CompleteBelow g rk (DvOf g rk) (rk u) st :=
        fun w hw => hcb w (by omega)
      obtain ⟨s1, s2, s3, s4, s5⟩ := seedEdges_pres hrk hp hf2 (g.edgesOf u) st hinv
        (fun e he => he) hkbnil
      obtain ⟨e1, e2, e3⟩ := seedEdges_complete hrk hp hf2 hcall2 (g.edgesOf u) st
        hinv (fun e he => he) hkbnil hcbr
      obtain ⟨v1, v2, v3, v4, v5, v6, v7⟩ := setVisited_pres u s1
      have hvcV : VComplete g (DvOf g rk)
          (setV (seedEdgesP (fun u2 k2 st2 => LazyKthBest g f u2 k2 st2) u
            (g.edgesOf u) st) u
            { getV (seedEdgesP (fun u2 k2 st2 => LazyKthBest g f u2 k2 st2) u
              (g.edgesOf u) st) u with visited := true }) u := by
        intro _
        constructor
        · intro e he hg
          rw [v6]
          exact e3 e he hg
        · intro x hx i hi hguard
          rw [v4, s4] at hx
          exact absurd hx (List.not_mem_nil x)
      have hcbV : CompleteBelow g rk (DvOf g rk) (rk u)
          (setV (seedEdgesP (fun u2 k2 st2 => LazyKthBest g f u2 k2 st2) u
            (g.edgesOf u) st) u
            { getV (seedEdgesP (fun u2 k2 st2 => LazyKthBest g f u2 k2 st2) u
              (g.edgesOf u) st) u with visited := true }) := by
        intro w hw
        have hwne : w ≠ u := by
          intro hcon
          rw [hcon] at hw
          omega
        exact VComplete_stable (v3 w hwne) (e1 w hw)
      obtain ⟨l1, l2, l3⟩ := kbLoop_complete hrk hD hp hf2 u k hcall2 (k + 1) _
        v1 v7 hvcV hcbV (by rw [v4, s4]; omega)
      obtain ⟨p1, p2, p3, p4⟩ := kbLoop_pres hrk hp hf2 (k + 1) _ v1 v7
      refine ⟨?_, l3⟩
      intro w hw
      by_cases hwu : w = u
      · rw [hwu]
        exact l1
      · by_cases hwlt : rk w < rk u
        · exact l2 w hwlt
        · have hframe := p3 w hwu (by omega)
          rw [v3 w hwu, s3 w hwu (by omega)] at hframe
          exact VComplete_stable hframe (hcb w hw)

lemma hget_getElem?_of_lt {a : List Derivation} {i : Nat} (h : i < a.length) :
    a[i]? = some (hget a i) := by
  rw [hget_eq_getElem?, List.getElem?_eq_getElem h]
  rfl

/-- A merge-frontier entry's score is unchanged by any state growth that
keeps the referenced rank materialised. -/
lemma entryScore_extends {st st2 : KState} (hext : Extends st st2) {p : Nat × Nat}
    (hp : p.2 < (getV st p.1).kBestList.length) :
    entryScore st2 p = entryScore st p := by
  unfold entryScore
  have h1 : (getV st p.1).kBestList[p.2]? = some (hget (getV st p.1).kBestList p.2) :=
    hget_getElem?_of_lt hp
  have h2 := IsPrefix.getElem?_some (hext p.1) h1
  rw [hget_eq_getElem?, h2, hget_eq_getElem?, h1]
  rfl

lemma pickBest_ne_none {st : KState} (p : Nat × Nat) (ps : List (Nat × Nat)) :
    pickBest st (p :: ps) ≠ none := by
  simp only [pickBest]
  cases h : pickBest st ps with
  | none => simp
  | some pr =>
    obtain ⟨q, rest⟩ := pr
    by_cases hq : entryScore st p < entryScore st q
    · simp [hq]
    · simp [hq]

/-- Popping the best frontier entry permutes the frontier. -/
lemma pickBest_perm {st : KState} : ∀ (l rest : List (Nat × Nat)) (p : Nat × Nat),
    pickBest st l = some (p, rest) → l.Perm (p :: rest) := by
  intro l
  induction l with
  | nil => intro rest p h; simp [pickBest] at h
  | cons q qs ih =>
    intro rest p h
    cases hqs : pickBest st qs with
    | none =>
      have hnil : qs = [] := by
        cases qs with
        | nil => rfl
        | cons a as => exact absurd hqs (pickBest_ne_none a as)
      simp only [pickBest, hqs] at h
      rw [Option.some.injEq, Prod.mk.injEq] at h
      obtain ⟨hp, hrest⟩ := h
      subst hp
      subst hrest
      rw [hnil]
    | some pr =>
      obtain ⟨q2, rest2⟩ := pr
      simp only [pickBest, hqs] at h
      by_cases hlt : entryScore st q < entryScore st q2
      · rw [if_pos hlt, Option.some.injEq, Prod.mk.injEq] at h
        obtain ⟨hp, hrest⟩ := h
        subst hp
        subst hrest
        exact ((ih rest2 q2 hqs).cons q).trans (List.Perm.swap q2 q rest2)
      · rw [if_neg hlt, Option.some.injEq, Prod.mk.injEq] at h
        obtain ⟨hp, hrest⟩ := h
        subst hp
        subst hrest
        exact List.Perm.refl _

/-- The popped frontier entry has maximal score. -/
lemma pickBest_max {st : KState} : ∀ (l rest : List (Nat × Nat)) (p : Nat × Nat),
    pickBest st l = some (p, rest) →
    ∀ q ∈ l, entryScore st q ≤ entryScore st p := by
  intro l
  induction l with
  | nil => intro rest p h; simp [pickBest] at h
  | cons a as ih =>
    intro rest p h q hq
    cases has : pickBest st as with
    | none =>
      have hnil : as = [] := by
        cases as with
        | nil => rfl
        | cons b bs => exact absurd has (pickBest_ne_none b bs)
      simp only [pickBest, has] at h
      rw [Option.some.injEq, Prod.mk.injEq] at h
      obtain ⟨hp, _⟩ := h
      subst hp
      rcases List.mem_cons.mp hq with hqa | hqs
      · rw [hqa]
      · rw [hnil] at hqs
        exact absurd hqs (List.not_mem_nil q)
    | some pr =>
      obtain ⟨q2, rest2⟩ := pr
      simp only [pickBest, has] at h
      by_cases hlt : entryScore st a < entryScore st q2
      · rw [if_pos hlt, Option.some.injEq, Prod.mk.injEq] at h
        obtain ⟨hp, _⟩ := h
        subst hp
        rcases List.mem_cons.mp hq with hqa | hqs
        · rw [hqa]
          exact le_of_lt hlt
        · exact ih rest2 q2 has q hqs
      · rw [if_neg hlt, Option.some.injEq, Prod.mk.injEq] at h
        obtain ⟨hp, _⟩ := h
        subst hp
        rcases List.mem_cons.mp hq with hqa | hqs
        · rw [hqa]
        · exact le_trans (ih rest2 q2 has q hqs) (le_of_not_lt hlt)

/-- A sufficiently fuelled top-level call preserves the invariant and the
global closure, and materialises `min (k+1)` and the derivation count many
ranks at its subject. -/
lemma LazyKthBest_completeAll {g : Hypergraph} {rk : Nat → Nat}
    (hrk : Ranked g rk) (hD : EdgeIdsDistinct g) {fuel vid k : Nat} {st : KState}
    (hfuel : 2 * rk vid + 1 ≤ fuel) (hinv : Inv g st)
    (hca : CompleteAll g (DvOf g rk) st) :
    Inv g (LazyKthBest g fuel vid k st) ∧
    Extends st (LazyKthBest g fuel vid k st) ∧
    CompleteAll g (DvOf g rk) (LazyKthBest g fuel vid k st) ∧
    min (k + 1) (DvOf g rk vid)
      ≤ (getV (LazyKthBest g fuel vid k st) vid).kBestList.length := by
  have hkc := LazyKthBest_complete hrk hD (rk vid + 1) (rk vid + 1) fuel
    (le_refl _) (by omega)
  have hcb : CompleteBelow g rk (DvOf g rk) (rk vid + 1) st := fun w _ => hca w
  obtain ⟨h1, h2⟩ := hkc vid k st (by omega) hinv hcb
  obtain ⟨p1, p2, p3⟩ := LazyKthBest_pres hrk fuel vid k st hinv
  refine ⟨p1, p2, ?_, h2⟩
  intro w
  by_cases hw : rk w < rk vid + 1
  · exact h1 w hw
  · exact VComplete_stable (p3 w (by omega)) (hca w)

/-- The root-seeding fold of `Extract`: invariant and closure are kept and
every root with at least one derivation has its best one materialised. -/
lemma extract_foldl_spec {g : Hypergraph} {rk : Nat → Nat} {fuel : Nat}
    (hrk : Ranked g rk) (hD : EdgeIdsDistinct g) :
    ∀ (roots : List Nat) (st : KState), Inv g st →
      CompleteAll g (DvOf g rk) st →
      (∀ root ∈ roots, 2 * rk root + 1 ≤ fuel) →
      Inv g (roots.foldl (fun st2 root => LazyKthBest g fuel root 0 st2) st) ∧
      Extends st (roots.foldl (fun st2 root => LazyKthBest g fuel root 0 st2) st) ∧
      CompleteAll g (DvOf g rk)
        (roots.foldl (fun st2 root => LazyKthBest g fuel root 0 st2) st) ∧
      (∀ root ∈ roots, min 1 (DvOf g rk root)
        ≤ (getV (roots.foldl (fun st2 root => LazyKthBest g fuel root 0 st2) st)
          root).kBestList.length) := by
  intro roots
  induction roots with
  | nil =>
    intro st hinv hca hfl
    exact ⟨hinv, Extends.refl st, hca, fun r hr => absurd hr (List.not_mem_nil r)⟩
  | cons r roots ih =>
    intro st hinv hca hfl
    simp only [List.foldl_cons]
    obtain ⟨a1, a2, a3, a4⟩ := LazyKthBest_completeAll hrk hD
      (hfl r (List.mem_cons_self r roots)) hinv hca
    obtain ⟨b1, b2, b3, b4⟩ := ih (LazyKthBest g fuel r 0 st) a1 a3
      (fun x hx => hfl x (List.mem_cons_of_mem _ hx))
    refine ⟨b1, Extends.trans a2 b2, b3, ?_⟩
    intro root hroot
    rcases List.mem_cons.mp hroot with hr | hrs
    · rw [hr]
      exact le_trans a4 (Extends.len_le b2 r)
    · exact b4 root hrs

/-- The merge loop of `Extract` emits exactly `min k` (remaining derivations)
entries, non-increasing in score and bounded by the frontier's best entry. -/
lemma extractLoop_spec {g : Hypergraph} {rk : Nat → Nat} {fuel : Nat}
    (hrk : Ranked g rk) (hD : EdgeIdsDistinct g) :
    ∀ (k : Nat) (st : KState) (frontier : List (Nat × Nat)),
      Inv g st → CompleteAll g (DvOf g rk) st →
      (∀ p ∈ frontier, 2 * rk p.1 + 1 ≤ fuel) →
      (∀ p ∈ frontier, p.2 < (getV st p.1).kBestList.length) →
      (extractLoop g fuel k st frontier).length
        = min k ((frontier.map (fun p => DvOf g rk p.1 - p.2)).sum) ∧
      ScoresNonInc (extractLoop g fuel k st frontier) ∧
      (∀ d ∈ extractLoop g fuel k st frontier, ∃ p ∈ frontier,
        d.score ≤ entryScore st p) := by
  intro k
  induction k with
  | zero =>
    intro st frontier hinv hca hfuel hvalid
    refine ⟨by simp [extractLoop], List.chain'_nil, ?_⟩
    intro d hd
    exact absurd hd (List.not_mem_nil d)
  | succ k ih =>
    intro st frontier hinv hca hfuel hvalid
    cases frontier with
    | nil =>
      have hred : extractLoop g fuel (k + 1) st [] = [] := by
        simp [extractLoop, pickBest]
      refine ⟨?_, ?_, ?_⟩
      · rw [hred]
        simp
      · rw [hred]
        exact List.chain'_nil
      · intro d hd
        rw [hred] at hd
        exact absurd hd (List.not_mem_nil d)
    | cons p0 ps0 =>
      obtain ⟨pr, hpick⟩ : ∃ pr, pickBest st (p0 :: ps0) = some pr := by
        cases hpb : pickBest st (p0 :: ps0) with
        | none => exact absurd hpb (pickBest_ne_none p0 ps0)
        | some pr => exact ⟨pr, rfl⟩
      obtain ⟨⟨root, rank⟩, rest⟩ := pr
      have hperm := pickBest_perm _ _ _ hpick
      have hmax := pickBest_max _ _ _ hpick
      have hpmem : (root, rank) ∈ p0 :: ps0 :=
        hperm.symm.subset (List.mem_cons_self _ _)
      have hrestsub : ∀ q ∈ rest, q ∈ p0 :: ps0 :=
        fun q hq => hperm.symm.subset (List.mem_cons_of_mem _ hq)
      have hfuelroot : 2 * rk root + 1 ≤ fuel := hfuel _ hpmem
      have hrank : rank < (getV st root).kBestList.length := hvalid _ hpmem
      obtain ⟨a1, a2, a3, a4⟩ := @LazyKthBest_completeAll g rk hrk hD fuel root
        (rank + 1) st hfuelroot hinv hca
      have hrankDv : rank < DvOf g rk root := by
        have := kb_le_Dv hrk hD hinv root
        omega
      have hsum : (((p0 :: ps0).map (fun p => DvOf g rk p.1 - p.2)).sum)
          = (DvOf g rk root - rank)
            + ((rest.map (fun p => DvOf g rk p.1 - p.2)).sum) := by
        rw [(hperm.map (fun p => DvOf g rk p.1 - p.2)).sum_eq]
        simp
      simp only [extractLoop, hpick]
      set st2 := LazyKthBest g fuel root (rank + 1) st with hst2
      have hlen2le := kb_le_Dv hrk hD a1 root
      by_cases hreq : rank + 1 < (getV st2 root).kBestList.length
      · rw [if_pos hreq]
        have hreqDv : rank + 1 < DvOf g rk root := by omega
        have hfuel2 : ∀ q ∈ rest ++ [(root, rank + 1)],
            2 * rk q.1 + 1 ≤ fuel := by
          intro q hq
          rcases List.mem_append.mp hq with hq1 | hq2
          · exact hfuel q (hrestsub q hq1)
          · simp at hq2
            rw [hq2]
            exact hfuelroot
        have hvalid2 : ∀ q ∈ rest ++ [(root, rank + 1)],
            q.2 < (getV st2 q.1).kBestList.length := by
          intro q hq
          rcases List.mem_append.mp hq with hq1 | hq2
          · exact lt_of_lt_of_le (hvalid q (hrestsub q hq1)) (Extends.len_le a2 q.1)
          · simp at hq2
            rw [hq2]
            exact hreq
        obtain ⟨L, S, B⟩ := ih st2 (rest ++ [(root, rank + 1)]) a1 a3 hfuel2 hvalid2
        have hq_bound : ∀ q ∈ rest ++ [(root, rank + 1)],
            entryScore st2 q ≤ entryScore st (root, rank) := by
          intro q hq
          rcases List.mem_append.mp hq with hq1 | hq2
          · rw [entryScore_extends a2 (hvalid q (hrestsub q hq1))]
            exact hmax q (hrestsub q hq1)
          · simp at hq2
            rw [hq2]
            have h1 : (getV st2 root).kBestList[rank]?
                = some (hget (getV st2 root).kBestList rank) :=
              hget_getElem?_of_lt (by omega)
            have h2 : (getV st2 root).kBestList[rank + 1]?
                = some (hget (getV st2 root).kBestList (rank + 1)) :=
              hget_getElem?_of_lt hreq
            have hsor := sorted_getElem?_le (a1 root).sorted (by omega) h1 h2
            have heq : entryScore st2 (root, rank) = entryScore st (root, rank) :=
              entryScore_extends a2 hrank
            calc entryScore st2 (root, rank + 1)
                ≤ entryScore st2 (root, rank) := hsor
              _ = entryScore st (root, rank) := heq
        refine ⟨?_, ?_, ?_⟩
        · rw [List.length_cons, L, hsum]
          simp only [List.map_append, List.sum_append]
          simp only [List.map_cons, List.map_nil, List.sum_cons, List.sum_nil]
          omega
        · rw [ScoresNonInc, List.chain'_cons']
          refine ⟨?_, S⟩
          intro b hb
          obtain ⟨q, hq, hble⟩ := B b (List.mem_of_mem_head? hb)
          exact le_trans hble (hq_bound q hq)
        · intro d hd
          rcases List.mem_cons.mp hd with hd1 | hd2
          · refine ⟨(root, rank), hpmem, ?_⟩
            rw [hd1]
            exact le_refl _
          · obtain ⟨q, hq, hble⟩ := B d hd2
            exact ⟨(root, rank), hpmem, le_trans hble (hq_bound q hq)⟩
      · rw [if_neg hreq]
        have hDvEq : DvOf g rk root = rank + 1 := by omega
        have hfuel2 : ∀ q ∈ rest, 2 * rk q.1 + 1 ≤ fuel :=
          fun q hq => hfuel q (hrestsub q hq)
        have hvalid2 : ∀ q ∈ rest, q.2 < (getV st2 q.1).kBestList.length :=
          fun q hq =>
            lt_of_lt_of_le (hvalid q (hrestsub q hq)) (Extends.len_le a2 q.1)
        obtain ⟨L, S, B⟩ := ih st2 rest a1 a3 hfuel2 hvalid2
        have hq_bound : ∀ q ∈ rest,
            entryScore st2 q ≤ entryScore st (root, rank) := by
          intro q hq
          rw [entryScore_extends a2 (hvalid q (hrestsub q hq))]
          exact hmax q (hrestsub q hq)
        refine ⟨?_, ?_, ?_⟩
        · rw [List.length_cons, L, hsum]
          omega
        · rw [ScoresNonInc, List.chain'_cons']
          refine ⟨?_, S⟩
          intro b hb
          obtain ⟨q, hq, hble⟩ := B b (List.mem_of_mem_head? hb)
          exact le_trans hble (hq_bound q hq)
        · intro d hd
          rcases List.mem_cons.mp hd with hd1 | hd2
          · refine ⟨(root, rank), hpmem, ?_⟩
            rw [hd1]
            exact le_refl _
          · obtain ⟨q, hq, hble⟩ := B d hd2
            exact ⟨(root, rank), hpmem, le_trans hble (hq_bound q hq)⟩

lemma edgesOf_mem_or_nil (g : Hypergraph) (vid : Nat) :
    g.edgesOf vid = [] ∨ (vid, g.edgesOf vid) ∈ g.edges := by
  unfold Hypergraph.edgesOf
  cases hl : g.edges.lookup vid with
  | none => left; rfl
  | some es =>
    right
    have := lookup_mem _ _ _ hl
    simpa using this

/-- Distinctness of each vertex's incoming hyperedge identities follows from
checking the finitely many listed vertices. -/
lemma EdgeIdsDistinct_of_pairs (g : Hypergraph)
    (h : ∀ p ∈ g.edges,
      p.2.Pairwise (fun e1 e2 => e1.head ≠ e2.head ∨ e1.tail ≠ e2.tail)) :
    EdgeIdsDistinct g := by
  intro vid
  rcases edgesOf_mem_or_nil g vid with hnil | hmem
  · rw [hnil]
    exact List.Pairwise.nil
  · exact h _ hmem

/-- The initial merge frontier holds exactly the roots with at least one
derivation, at rank 0, and accounts for every reachable derivation. -/
lemma frontier0_spec {g : Hypergraph} {rk : Nat → Nat} {st1 : KState} :
    ∀ (roots : List Nat),
      (∀ root ∈ roots, min 1 (DvOf g rk root)
        ≤ (getV st1 root).kBestList.length) →
      (∀ p ∈ roots.foldr (fun root acc =>
          if 0 < (getV st1 root).kBestList.length then (root, 0) :: acc else acc) [],
        p.1 ∈ roots ∧ p.2 = 0 ∧ p.2 < (getV st1 p.1).kBestList.length) ∧
      ((roots.foldr (fun root acc =>
          if 0 < (getV st1 root).kBestList.length then (root, 0) :: acc else acc)
          []).map (fun p => DvOf g rk p.1 - p.2)).sum
        = (roots.map (DvOf g rk)).sum := by
  intro roots
  induction roots with
  | nil =>
    intro _
    exact ⟨fun p hp => absurd hp (List.not_mem_nil p), rfl⟩
  | cons r rs ih =>
    intro hmin
    obtain ⟨ih1, ih2⟩ := ih (fun x hx => hmin x (List.mem_cons_of_mem _ hx))
    simp only [List.foldr_cons]
    by_cases hr : 0 < (getV st1 r).kBestList.length
    · rw [if_pos hr]
      refine ⟨?_, ?_⟩
      · intro p hp
        rcases List.mem_cons.mp hp with hp1 | hp2
        · rw [hp1]
          exact ⟨List.mem_cons_self _ _, rfl, hr⟩
        · obtain ⟨m1, m2, m3⟩ := ih1 p hp2
          exact ⟨List.mem_cons_of_mem _ m1, m2, m3⟩
      · simp only [List.map_cons, List.sum_cons, ih2]
        omega
    · rw [if_neg hr]
      have hz : DvOf g rk r = 0 := by
        have := hmin r (List.mem_cons_self _ _)
        omega
      refine ⟨?_, ?_⟩
      · intro p hp
        obtain ⟨m1, m2, m3⟩ := ih1 p hp
        exact ⟨List.mem_cons_of_mem _ m1, m2, m3⟩
      · simp only [List.map_cons, List.sum_cons, ih2, hz]
        omega

/-- C1: for every acyclic hypergraph whose per-vertex hyperedge identities are
distinct, and any request size `k`, `Extract(topHypos, k)` returns exactly
`min(k, totalReachableDerivations)` derivations, ordered non-increasing by
score; requesting more derivations than exist just yields a shorter list, and
`k = 0` yields the empty list.  `fuel` only needs to cover the recursion
depth along the rank function. -/
theorem C1_extract_exact_min_count (g : Hypergraph) (rk : Nat → Nat)
    (fuel k : Nat) (topHypos : List Nat) (hrk : Ranked g rk)
    (hD : EdgeIdsDistinct g)
    (hfuel : ∀ root ∈ topHypos, 2 * rk root + 1 ≤ fuel) :
    (Extract g fuel topHypos k).length = min k (totalDerivations g rk topHypos) ∧
    ScoresNonInc (Extract g fuel topHypos k) ∧
    (k = 0 → Extract g fuel topHypos k = []) := by
  have hca0 : CompleteAll g (DvOf g rk) initState := by
    intro vid hv
    exact Bool.noConfusion hv
  obtain ⟨f1, f2, f3, f4⟩ := extract_foldl_spec hrk hD topHypos initState
    (Inv_init g) hca0 hfuel
  set st1 := topHypos.foldl (fun st root => LazyKthBest g fuel root 0 st) initState
    with hst1
  obtain ⟨fr1, fr2⟩ := frontier0_spec topHypos f4
  set F0 := topHypos.foldr (fun root acc =>
    if 0 < (getV st1 root).kBestList.length then (root, 0) :: acc else acc) []
    with hF0
  have hfuelF : ∀ p ∈ F0, 2 * rk p.1 + 1 ≤ fuel :=
    fun p hp => hfuel p.1 (fr1 p hp).1
  have hvalidF : ∀ p ∈ F0, p.2 < (getV st1 p.1).kBestList.length :=
    fun p hp => (fr1 p hp).2.2
  obtain ⟨L, S, B⟩ := extractLoop_spec hrk hD k st1 F0 f1 f3 hfuelF hvalidF
  have hunfold : Extract g fuel topHypos k = extractLoop g fuel k st1 F0 := rfl
  refine ⟨?_, ?_, ?_⟩
  · rw [hunfold, L, fr2]
    rfl
  · rw [hunfold]
    exact S
  · intro hk
    rw [hunfold, hk]
    rfl

/-- C1 witness: on the two-vertex example hypergraph (root `0` over child `1`
with two derivations), requesting 5 derivations yields `min 5 2 = 2` entries,
sorted, and `k = 0` would yield none. -/
theorem C1_witness :
    (Extract gEx2 3 [0] 5).length = min 5 (totalDerivations gEx2 rkEx2 [0]) ∧
    ScoresNonInc (Extract gEx2 3 [0] 5) ∧
    (5 = 0 → Extract gEx2 3 [0] 5 = []) :=
  C1_extract_exact_min_count gEx2 rkEx2 3 5 [0] (by decide)
    (EdgeIdsDistinct_of_pairs gEx2 (by decide)) (by decide)

/-! ## Proofs — Part A -/

lemma SymbolBind.getNTElements_eq_filter (sb : SymbolBind) :
    sb.GetNTElements = sb.coll.filter (fun ele => ele.word.isNonTerminal) := by
  have h : ∀ (l : List SymbolBindElement) (acc : List SymbolBindElement),
      l.foldl (fun ret ele => if ele.word.isNonTerminal then ret ++ [ele] else ret) acc
        = acc ++ l.filter (fun ele => ele.word.isNonTerminal) := by
    intro l
    induction l with
    | nil => intro acc; simp
    | cons x xs ih =>
      intro acc
      by_cases hx : x.word.isNonTerminal
      · simp [List.foldl_cons, hx, ih, List.filter_cons]
      · simp [List.foldl_cons, hx, ih, List.filter_cons]
  simpa using h sb.coll []

def SymbolBind.invNT (sb : SymbolBind) : Prop :=
  sb.numNT = (sb.coll.filter (fun ele => ele.word.isNonTerminal)).length

lemma SymbolBind.invNT_empty : SymbolBind.invNT SymbolBind.empty := by
  simp [SymbolBind.invNT, SymbolBind.empty]

lemma SymbolBind.invNT_add {sb sb' : SymbolBind} {range : Nat} {word : SCFGWord}
    {hypos : Option Nat} (h : sb.Add range word hypos = some sb')
    (hinv : sb.invNT) : sb'.invNT := by
  unfold SymbolBind.Add at h
  unfold SymbolBindElement.mk? at h
  by_cases hc : (word.isNonTerminal && hypos.isSome) || (!word.isNonTerminal && hypos.isNone)
  · simp only [hc, if_true, Option.map_some] at h
    cases h
    unfold SymbolBind.invNT at hinv ⊢
    by_cases hnt : word.isNonTerminal
    · simp [hnt, List.filter_append, hinv]
    · simp [hnt, List.filter_append, hinv]
  · simp [hc] at h

lemma SymbolBind.invNT_build {args : List (Nat × SCFGWord × Option Nat)}
    {sb : SymbolBind} (h : SymbolBind.build args = some sb) : sb.invNT := by
  have main : ∀ (l : List (Nat × SCFGWord × Option Nat)) (s0 : SymbolBind),
      s0.invNT →
      ∀ s1, l.foldlM (fun sb a => sb.Add a.1 a.2.1 a.2.2) s0 = some s1 → s1.invNT := by
    intro l
    induction l with
    | nil => intro s0 h0 s1 hf; simp at hf; simpa [← hf] using h0
    | cons x xs ih =>
      intro s0 h0 s1 hf
      simp only [List.foldlM_cons, Option.bind_eq_bind] at hf
      rcases Option.bind_eq_some.mp hf with ⟨smid, hmid, hrest⟩
      exact ih smid (SymbolBind.invNT_add hmid h0) s1 hrest
  exact main args SymbolBind.empty SymbolBind.invNT_empty sb h

/-- C9: every `SymbolBindElement` satisfies, from construction onward, that its
`hypos` field is non-null if and only if its word is a non-terminal, and the
constructor's assertion rejects any violating combination. -/
theorem C9_symbolBindElement_hypos_iff_nonTerminal :
    (∀ (range : Nat) (word : SCFGWord) (hypos : Option Nat) (e : SymbolBindElement),
        SymbolBindElement.mk? range word hypos = some e →
        (e.word.isNonTerminal = true ↔ e.hypos.isSome = true)) ∧
    (∀ (range : Nat) (word : SCFGWord) (hypos : Option Nat),
        ¬(word.isNonTerminal = true ↔ hypos.isSome = true) →
        SymbolBindElement.mk? range word hypos = none) := by
  constructor
  · intro range word hypos e h
    unfold SymbolBindElement.mk? at h
    cases hw : word.isNonTerminal <;> cases hy : hypos <;> simp_all <;>
      subst h <;> simp [hw]
  · intro range word hypos h
    unfold SymbolBindElement.mk?
    cases hw : word.isNonTerminal <;> cases hy : hypos <;> simp_all

theorem C9_symbolBindElement_witness :
    (SymbolBindElement.mk? 0 ⟨7, true⟩ (some 5) = some ⟨0, ⟨7, true⟩, some 5⟩) ∧
    ((⟨0, ⟨7, true⟩, some 5⟩ : SymbolBindElement).word.isNonTerminal = true ↔
      (⟨0, ⟨7, true⟩, some 5⟩ : SymbolBindElement).hypos.isSome = true) :=
  ⟨by decide, C9_symbolBindElement_hypos_iff_nonTerminal.1 0 ⟨7, true⟩ (some 5) _ (by decide)⟩

/-- C10: for every `SymbolBind` built by a sequence of `Add` calls, `numNT`
equals the number of non-terminal elements of `coll`, and `GetNTElements`
returns exactly those elements in the order they were added, so its size is
`numNT`. -/
theorem C10_symbolBind_numNT_counts_nonterminals :
    ∀ (args : List (Nat × SCFGWord × Option Nat)) (sb : SymbolBind),
      SymbolBind.build args = some sb →
      sb.numNT = (sb.coll.filter (fun ele => ele.word.isNonTerminal)).length ∧
      sb.GetNTElements = sb.coll.filter (fun ele => ele.word.isNonTerminal) ∧
      sb.GetNTElements.length = sb.numNT := by
  intro args sb h
  have hinv := SymbolBind.invNT_build h
  have hget := SymbolBind.getNTElements_eq_filter sb
  exact ⟨hinv, hget, by rw [hget, hinv]⟩

theorem C10_symbolBind_witness :
    (SymbolBind.build [(0, ⟨1, true⟩, some 3), (1, ⟨2, false⟩, none), (2, ⟨3, true⟩, some 4)]
      = some ⟨[⟨0, ⟨1, true⟩, some 3⟩, ⟨1, ⟨2, false⟩, none⟩, ⟨2, ⟨3, true⟩, some 4⟩], 2⟩) ∧
    ((⟨[⟨0, ⟨1, true⟩, some 3⟩, ⟨1, ⟨2, false⟩, none⟩, ⟨2, ⟨3, true⟩, some 4⟩], 2⟩ :
        SymbolBind).numNT =
      (((⟨[⟨0, ⟨1, true⟩, some 3⟩, ⟨1, ⟨2, false⟩, none⟩, ⟨2, ⟨3, true⟩, some 4⟩], 2⟩ :
        SymbolBind)).coll.filter (fun ele => ele.word.isNonTerminal)).length ∧
      (⟨[⟨0, ⟨1, true⟩, some 3⟩, ⟨1, ⟨2, false⟩, none⟩, ⟨2, ⟨3, true⟩, some 4⟩], 2⟩ :
        SymbolBind).GetNTElements =
      (⟨[⟨0, ⟨1, true⟩, some 3⟩, ⟨1, ⟨2, false⟩, none⟩, ⟨2, ⟨3, true⟩, some 4⟩], 2⟩ :
        SymbolBind).coll.filter (fun ele => ele.word.isNonTerminal) ∧
      (⟨[⟨0, ⟨1, true⟩, some 3⟩, ⟨1, ⟨2, false⟩, none⟩, ⟨2, ⟨3, true⟩, some 4⟩], 2⟩ :
        SymbolBind).GetNTElements.length =
      (⟨[⟨0, ⟨1, true⟩, some 3⟩, ⟨1, ⟨2, false⟩, none⟩, ⟨2, ⟨3, true⟩, some 4⟩], 2⟩ :
        SymbolBind).numNT) :=
  ⟨by decide,
   C10_symbolBind_numNT_counts_nonterminals
     [(0, ⟨1, true⟩, some 3), (1, ⟨2, false⟩, none), (2, ⟨3, true⟩, some 4)] _ (by decide)⟩

end MosesVerify
